import Mathlib

/-!
Verification development for the team-interface change tracker
(`scripts/team_interfaces_tracker.py`) and the incremental merge controller
(`scripts/gap_filler.py`).

JSON-decoded Python values (null / bool / int / str / list / dict) are
embedded as the inductive `JValue`.  Dicts are association lists in insertion
order (Python 3.7+ dicts preserve insertion order and have unique keys).
Numbers are modelled as `Int` (the repository's data uses integral numbers;
no claim concerns floating point).  Fallible Python code is embedded in
`Except PyExc`, distinguishing exception classes because
`team_interfaces_tracker.get_change_info` catches exactly
`(KeyError, IndexError, ValueError)` while `TypeError`/`AttributeError`
propagate.
-/

inductive JValue where
  | null : JValue
  | bool (b : Bool) : JValue
  | num (n : Int) : JValue
  | str (s : String) : JValue
  | arr (xs : List JValue) : JValue
  | obj (kvs : List (String × JValue)) : JValue

/-- Python exception classes that the embedded code can raise. -/
inductive PyExc where
  | keyError
  | indexError
  | valueError
  | typeError
  | attributeError
deriving DecidableEq, Repr

/-- The classes caught by `except (KeyError, IndexError, ValueError)` in
`get_change_info`. -/
def PyExc.caught : PyExc → Bool
  | .keyError => true
  | .indexError => true
  | .valueError => true
  | .typeError => false
  | .attributeError => false

/-- Python truthiness of a JSON-decoded value (`if v:`). -/
def JValue.truthy : JValue → Bool
  | .null => false
  | .bool b => b
  | .num n => n != 0
  | .str s => !s.isEmpty
  | .arr xs => !xs.isEmpty
  | .obj kvs => !kvs.isEmpty

/-- First-match association-list lookup (Python dict lookup; real dicts have
unique keys, so first match is the match). -/
def jlookup : List (String × JValue) → String → Option JValue
  | [], _ => none
  | (k, v) :: rest, key => if k = key then some v else jlookup rest key

/-- Python `==` on JSON-decoded values: structural on matching types, with
`bool`/`int` numeric coercion (`True == 1`), positional equality on lists, and
key-set/value equality on dicts (order-insensitive). -/
def pyEq : JValue → JValue → Bool
  | .null, .null => true
  | .bool a, .bool b => a == b
  | .bool a, .num n => (if a then (1 : Int) else 0) == n
  | .num n, .bool b => n == (if b then (1 : Int) else 0)
  | .num a, .num b => a == b
  | .str a, .str b => a == b
  | .arr xs, .arr ys => pyEqList xs ys
  | .obj xs, .obj ys => pyEqDict xs ys && ys.all (fun p => (jlookup xs p.1).isSome)
  | _, _ => false
where
  /-- Positional list equality. -/
  pyEqList : List JValue → List JValue → Bool
    | [], [] => true
    | x :: xs, y :: ys => pyEq x y && pyEqList xs ys
    | _, _ => false
  /-- Every key of the first dict maps to an equal value in the second. -/
  pyEqDict : List (String × JValue) → List (String × JValue) → Bool
    | [], _ => true
    | (k, v) :: rest, ys =>
      (match jlookup ys k with
       | some w => pyEq v w
       | none => false) && pyEqDict rest ys

/-- Python `needle in hay` substring test for strings. -/
def strContains (hay needle : String) : Bool :=
  (List.range (hay.data.length + 1)).any (fun i => needle.data.isPrefixOf (hay.data.drop i))

/-- Python `needle in v` where `needle` is a string: key membership for dicts,
element membership (via `==`) for lists, substring test for strings,
`TypeError` for non-iterable scalars. -/
def pyInStr (needle : String) (v : JValue) : Except PyExc Bool :=
  match v with
  | .obj kvs => .ok (jlookup kvs needle).isSome
  | .arr xs => .ok (xs.any (fun x => pyEq x (.str needle)))
  | .str s => .ok (strContains s needle)
  | _ => .error .typeError

/-- Python `v[k]` with a string key: dict lookup (`KeyError` when absent),
`TypeError` on lists, strings and scalars. -/
def pySubscrStr (v : JValue) (k : String) : Except PyExc JValue :=
  match v with
  | .obj kvs =>
    match jlookup kvs k with
    | some w => .ok w
    | none => .error .keyError
  | _ => .error .typeError

/-- Python `v[i]` with a non-negative int index: list indexing
(`IndexError` out of range), one-character string for strings, `KeyError` on
(string-keyed) dicts, `TypeError` on scalars. -/
def pySubscrNat (v : JValue) (i : Nat) : Except PyExc JValue :=
  match v with
  | .arr xs =>
    match xs[i]? with
    | some x => .ok x
    | none => .error .indexError
  | .str s =>
    match s.data[i]? with
    | some c => .ok (.str (String.mk [c]))
    | none => .error .indexError
  | .obj _ => .error .keyError
  | _ => .error .typeError

/-- Python `len(v)`: `TypeError` on scalars. -/
def pyLen (v : JValue) : Except PyExc Nat :=
  match v with
  | .arr xs => .ok xs.length
  | .str s => .ok s.data.length
  | .obj kvs => .ok kvs.length
  | _ => .error .typeError

/-- Python `for x in v`: list elements, string characters (as one-character
strings), dict keys (as strings); `TypeError` on scalars. -/
def pyIter (v : JValue) : Except PyExc (List JValue) :=
  match v with
  | .arr xs => .ok xs
  | .str s => .ok (s.data.map (fun c => .str (String.mk [c])))
  | .obj kvs => .ok (kvs.map (fun p => .str p.1))
  | _ => .error .typeError

/-- Python `v.get(k, d)`: defaulting dict lookup; `AttributeError` when `v`
is not a dict (lists, strings and scalars have no `.get`). -/
def pyGetD (v : JValue) (k : String) (d : JValue) : Except PyExc JValue :=
  match v with
  | .obj kvs => .ok ((jlookup kvs k).getD d)
  | _ => .error .attributeError

/-- Python `s.isdigit()` (ASCII decimal digits). -/
def isdigitS (s : String) : Bool :=
  !s.data.isEmpty && s.data.all Char.isDigit

/-- Python `int(s)` for a decimal digit string. -/
def intOf (s : String) : Nat :=
  s.data.foldl (fun acc c => acc * 10 + (c.toNat - 48)) 0
/-- `team is None` test (`json.load` maps JSON `null` to Python `None`). -/
def JValue.isNull : JValue → Bool
  | .null => true
  | _ => false

/-- `team_interfaces_tracker.IGNORED_FIELDS`. -/
def IGNORED_FIELDS : List String :=
  ["latest_block_height", "script_start_time", "script_end_time", "reference_latest_block_height"]

/-- The literal-marker tier of `get_change_info` (lines 82-91): if the path
contains a `"team"` segment with a successor, team is that successor; service
is the successor of the first `"service"` segment at or after the team marker
when it has one (`None` when the `"service"` marker is last), else the
implicit `"interface"`. Pure: `list.index` is guarded by the membership
tests, so this part cannot raise. -/
def phase1 (pp : List String) : JValue × JValue :=
  if pp.contains "team" then
    let t := List.indexOf "team" pp
    if t + 1 < pp.length then
      let service :=
        if (pp.drop t).contains "service" then
          let s := t + List.indexOf "service" (pp.drop t)
          if s + 1 < pp.length then JValue.str (pp.getD (s + 1) "") else JValue.null
        else JValue.str "interface"
      (JValue.str (pp.getD (t + 1) ""), service)
    else (JValue.null, JValue.null)
  else (JValue.null, JValue.null)

/-- `current_state["networks"][0]["interface"][idx]` (line 96). -/
def interfaceFetch (cs : JValue) (idx : Nat) : Except PyExc JValue := do
  let nets ← pySubscrStr cs "networks"
  let n0 ← pySubscrNat nets 0
  let il ← pySubscrStr n0 "interface"
  pySubscrNat il idx

/-- Lines 102-103: `if service_idx < len(interface_data["settings"]): service =
interface_data["settings"][service_idx]["service"]`; `none` when the bound
check fails (no assignment). -/
def settingsFetch (idata : JValue) (svcIdx : Nat) : Except PyExc (Option JValue) := do
  let sv ← pySubscrStr idata "settings"
  let L ← pyLen sv
  if svcIdx < L then
    let se ← pySubscrNat sv svcIdx
    let svc ← pySubscrStr se "service"
    pure (some svc)
  else pure none

/-- One firing iteration of the positional-fallback loop (lines 94-105), in
state-passing style: `.inl` is the updated `(team, service)` pair, `.inr`
carries an exception together with the `(team, service)` values already
assigned when it was raised (assignments before the raise survive into the
`except` handler). -/
def fallbackStep (pp : List String) (cs : JValue) (i : Nat) (st : JValue × JValue) :
    (JValue × JValue) ⊕ (PyExc × (JValue × JValue)) :=
  match interfaceFetch cs (intOf (pp.getD (i + 1) "")) with
  | .error e => .inr (e, st)
  | .ok idata =>
    match pySubscrStr idata "team" with
    | .error e => .inr (e, st)
    | .ok t =>
      if pp.contains "settings" then
        let sIdx := List.indexOf "settings" pp
        if sIdx + 1 < pp.length ∧ isdigitS (pp.getD (sIdx + 1) "") = true then
          match settingsFetch idata (intOf (pp.getD (sIdx + 1) "")) with
          | .error e => .inr (e, (t, st.2))
          | .ok none => .inl (t, st.2)
          | .ok (some svc) => .inl (t, svc)
        else .inl (t, st.2)
      else .inl (t, JValue.str "interface")

/-- The `for i, part in enumerate(path_parts)` loop of the positional
fallback: every index whose segment is `"interface"` followed by a digit
segment fires `fallbackStep`; later firings overwrite earlier assignments
(the source has no `break`). -/
def phase2Go (pp : List String) (cs : JValue) :
    List (Nat × String) → (JValue × JValue) → ((JValue × JValue) ⊕ (PyExc × (JValue × JValue)))
  | [], st => .inl st
  | (i, part) :: rest, st =>
    if part = "interface" ∧ i + 1 < pp.length ∧ isdigitS (pp.getD (i + 1) "") = true then
      match fallbackStep pp cs i st with
      | .inl st' => phase2Go pp cs rest st'
      | .inr err => .inr err
    else phase2Go pp cs rest st

/-- `team_interfaces_tracker.get_change_info`.  `path_parts[-1]` on an empty
path raises `IndexError` outside the `try`, so it propagates; inside the
`try`, `KeyError`/`IndexError`/`ValueError` are swallowed (keeping whatever
`team`/`service` were assigned before the raise) while other exceptions
(`TypeError` from subscripting scalars) propagate. -/
def get_change_info (path_parts : List String) (current_state : JValue) :
    Except PyExc (JValue × JValue × String) :=
  match path_parts.getLast? with
  | none => .error .indexError
  | some field =>
    if path_parts.headD "" = "required_versions" then
      .ok (.null, (if 1 < path_parts.length then .str (path_parts.getD 1 "") else .null), field)
    else if path_parts.headD "" = "networks" then
      let st0 := phase1 path_parts
      if st0.1.isNull then
        if current_state.truthy then
          match pyInStr "networks" current_state with
          | .error e => if e.caught then .ok (st0.1, st0.2, field) else .error e
          | .ok b =>
            if b then
              match phase2Go path_parts current_state path_parts.enum st0 with
              | .inl st => .ok (st.1, st.2, field)
              | .inr (e, st) => if e.caught then .ok (st.1, st.2, field) else .error e
            else .ok (st0.1, st0.2, field)
        else .ok (st0.1, st0.2, field)
      else .ok (st0.1, st0.2, field)
    else .ok (.null, .null, field)

/-- An ASCII single quote (used by Python `repr` of strings). -/
def squote : String :=
  String.mk [Char.ofNat 39]

/-- Python `repr` of a JSON-decoded value, as produced inside f-strings for
non-string values (quote-escaping inside strings is not exercised by the
tracked data). -/
def pyRepr : JValue → String
  | .null => "None"
  | .bool true => "True"
  | .bool false => "False"
  | .num n => toString n
  | .str s => squote ++ s ++ squote
  | .arr xs => "[" ++ String.intercalate ", " (pyReprList xs) ++ "]"
  | .obj kvs => "\x7b" ++ String.intercalate ", " (pyReprDict kvs) ++ "\x7d"
where
  pyReprList : List JValue → List String
    | [] => []
    | x :: xs => pyRepr x :: pyReprList xs
  pyReprDict : List (String × JValue) → List String
    | [] => []
    | (k, v) :: rest => (squote ++ k ++ squote ++ ": " ++ pyRepr v) :: pyReprDict rest

/-- Python `str(v)` as interpolated by an f-string. -/
def pyStrOf : JValue → String
  | .str s => s
  | v => pyRepr v

/-- Python `".".join(path_parts)`. -/
def joinDots (pp : List String) : String :=
  String.intercalate "." pp

/-- `team_interfaces_tracker.build_readable_path`. -/
def build_readable_path (path_parts : List String) (operator service : JValue) : String :=
  if path_parts.headD "" = "required_versions" then joinDots path_parts
  else if !operator.truthy then joinDots path_parts
  else if pyEq service (.str "interface") then
    "namada.operator." ++ pyStrOf operator ++ ".interface." ++ (path_parts.getLast?.getD "")
  else if service.truthy then
    "namada.operator." ++ pyStrOf operator ++ ".service." ++ pyStrOf service ++ "." ++
      (path_parts.getLast?.getD "")
  else
    "namada.operator." ++ pyStrOf operator ++ "." ++ joinDots path_parts

/-- One detected difference (`create_change_record`'s result dict).
`team`/`service` are `JValue.null` for Python `None`; `old_value`/`new_value`
use `JValue.null` for the `None` filled in on added/removed records. -/
structure ChangeRecord where
  team : JValue
  service : JValue
  field : String
  full_path : String
  type : String
  old_value : JValue
  new_value : JValue

/-- `team_interfaces_tracker.create_change_record`; fails iff
`get_change_info` raises. -/
def create_change_record (path_parts : List String) (change_type : String)
    (old_value new_value : JValue) (state : JValue) : Except PyExc ChangeRecord :=
  match get_change_info path_parts state with
  | .error e => .error e
  | .ok (team, service, field) =>
    .ok ⟨team, service, field, build_readable_path path_parts team service,
         change_type, old_value, new_value⟩

/-- The `added`-keys loop of `detect_changes` (lines 146-156): keys of the
new dict absent from the old dict and not ignored, in new-dict order. -/
def addedRecords (okvs : List (String × JValue)) :
    List (String × JValue) → List String → JValue → Except PyExc (List ChangeRecord)
  | [], _, _ => .ok []
  | (k, v) :: rest, path, root =>
    if (jlookup okvs k).isNone && !IGNORED_FIELDS.contains k then
      match create_change_record (path ++ [k]) "added" .null v root with
      | .error e => .error e
      | .ok r =>
        match addedRecords okvs rest path root with
        | .error e => .error e
        | .ok rs => .ok (r :: rs)
    else addedRecords okvs rest path root

/-- The `removed`-keys loop of `detect_changes` (lines 158-169). -/
def removedRecords (nkvs : List (String × JValue)) :
    List (String × JValue) → List String → JValue → Except PyExc (List ChangeRecord)
  | [], _, _ => .ok []
  | (k, v) :: rest, path, root =>
    if (jlookup nkvs k).isNone && !IGNORED_FIELDS.contains k then
      match create_change_record (path ++ [k]) "removed" v .null root with
      | .error e => .error e
      | .ok r =>
        match removedRecords nkvs rest path root with
        | .error e => .error e
        | .ok rs => .ok (r :: rs)
    else removedRecords nkvs rest path root

/-- The trailing-`added` loop for lists (lines 194-203): the new list's
elements from index `i` on. -/
def listAddedRecords : List JValue → Nat → List String → JValue → Except PyExc (List ChangeRecord)
  | [], _, _, _ => .ok []
  | x :: xs, i, path, root =>
    match create_change_record (path ++ [toString i]) "added" .null x root with
    | .error e => .error e
    | .ok r =>
      match listAddedRecords xs (i + 1) path root with
      | .error e => .error e
      | .ok rs => .ok (r :: rs)

/-- The trailing-`removed` loop for lists (lines 205-213). -/
def listRemovedRecords : List JValue → Nat → List String → JValue → Except PyExc (List ChangeRecord)
  | [], _, _, _ => .ok []
  | x :: xs, i, path, root =>
    match create_change_record (path ++ [toString i]) "removed" x .null root with
    | .error e => .error e
    | .ok r =>
      match listRemovedRecords xs (i + 1) path root with
      | .error e => .error e
      | .ok rs => .ok (r :: rs)

mutual

/-- `team_interfaces_tracker.detect_changes`: three mutually exclusive cases
per node pair — dict/dict (added, removed, then per-key recursion on unequal
values), list/list (positional recursion up to the shorter length, then
trailing added/removed), and the catch-all leaf `modified` on unequal
values.  The path grows by the dict key or the decimal index; classification
happens against `root_state`. -/
def detect_changes (old_state new_state : JValue) (path : List String) (root_state : JValue) :
    Except PyExc (List ChangeRecord) :=
  match old_state, new_state with
  | .obj okvs, .obj nkvs =>
    match addedRecords okvs nkvs path root_state with
    | .error e => .error e
    | .ok a =>
      match removedRecords nkvs okvs path root_state with
      | .error e => .error e
      | .ok r =>
        match modifiedRecords okvs nkvs path root_state with
        | .error e => .error e
        | .ok m => .ok (a ++ r ++ m)
  | .arr oxs, .arr nxs =>
    match commonRecords oxs nxs 0 path root_state with
    | .error e => .error e
    | .ok c =>
      match listAddedRecords (nxs.drop oxs.length) oxs.length path root_state with
      | .error e => .error e
      | .ok a =>
        match listRemovedRecords (oxs.drop nxs.length) nxs.length path root_state with
        | .error e => .error e
        | .ok r => .ok (c ++ a ++ r)
  | o, n =>
    if pyEq o n then .ok []
    else
      match create_change_record path "modified" o n root_state with
      | .error e => .error e
      | .ok r => .ok [r]
termination_by structural old_state

/-- The `modified`-keys loop (lines 171-181): recurse into keys present in
both dicts, not ignored, with `!=` values. -/
def modifiedRecords (okvs nkvs : List (String × JValue)) (path : List String) (root : JValue) :
    Except PyExc (List ChangeRecord) :=
  match okvs with
  | [] => .ok []
  | (k, v) :: rest =>
    match (match jlookup nkvs k with
           | some w =>
             if !IGNORED_FIELDS.contains k && !pyEq v w then
               detect_changes v w (path ++ [k]) root
             else .ok []
           | none => .ok []) with
    | .error e => .error e
    | .ok here =>
      match modifiedRecords rest nkvs path root with
      | .error e => .error e
      | .ok tail => .ok (here ++ tail)
termination_by structural okvs

/-- The positional loop for lists (lines 184-192): recurse index by index up
to the shorter length. -/
def commonRecords (oxs nxs : List JValue) (i : Nat) (path : List String) (root : JValue) :
    Except PyExc (List ChangeRecord) :=
  match oxs, nxs with
  | x :: xs, y :: ys =>
    match detect_changes x y (path ++ [toString i]) root with
    | .error e => .error e
    | .ok here =>
      match commonRecords xs ys (i + 1) path root with
      | .error e => .error e
      | .ok tail => .ok (here ++ tail)
  | _, _ => .ok []
termination_by structural oxs

end

/-- The top-level diff call `detect_changes(previous_state, current_state)`:
empty path, `root_state` defaulting to the new snapshot. -/
def detectChangesTop (old_state new_state : JValue) : Except PyExc (List ChangeRecord) :=
  detect_changes old_state new_state [] new_state

/-- Lexicographic comparison of code-point lists (Python string `<`). -/
def strLtL : List Char → List Char → Bool
  | [], [] => false
  | [], _ :: _ => true
  | _ :: _, [] => false
  | a :: as, b :: bs =>
    if a.toNat < b.toNat then true
    else if b.toNat < a.toNat then false
    else strLtL as bs

/-- Python `a < b` on strings (lexicographic by code point). -/
def pyStrLt (a b : String) : Bool :=
  strLtL a.data b.data

/-- Python `a > b` on JSON-decoded values: defined for string/string and
numeric pairs (with bool coercion), `TypeError` otherwise. -/
def pyGtB : JValue → JValue → Except PyExc Bool
  | .str a, .str b => .ok (pyStrLt b a)
  | .num a, .num b => .ok (decide (b < a))
  | .num a, .bool b => .ok (decide ((if b then (1 : Int) else 0) < a))
  | .bool a, .num b => .ok (decide (b < (if a then (1 : Int) else 0)))
  | .bool a, .bool b => .ok (!b && a)
  | _, _ => .error .typeError

/-- Python hashability of a JSON-decoded value (dict keys): lists and dicts
are unhashable. -/
def hashable : JValue → Bool
  | .arr _ => false
  | .obj _ => false
  | _ => true

/-- The gap filler's persisted state (`gap_filler_state.json`), per the
MergeState data model: `last_processed_timestamp` is `null` or a string
(the code stores whatever `max()` returned), `migration_completed` a bool,
`total_entries_processed` a non-negative count. -/
structure GFState where
  last_processed_timestamp : JValue
  migration_completed : Bool
  total_entries_processed : Nat

/-- The filtering loop of `get_new_entries_since_timestamp` (lines 124-129):
keep entries with `entry.get("timestamp", "") > last_timestamp`, in order. -/
def filterNewer : List JValue → JValue → Except PyExc (List JValue)
  | [], _ => .ok []
  | e :: rest, lt =>
    match pyGetD e "timestamp" (.str "") with
    | .error ex => .error ex
    | .ok ts =>
      match pyGtB ts lt with
      | .error ex => .error ex
      | .ok b =>
        match filterNewer rest lt with
        | .error ex => .error ex
        | .ok tail => .ok (if b then e :: tail else tail)

/-- `gap_filler.get_new_entries_since_timestamp`: `if not last_timestamp:
return changes_data` (so `None` *and* the empty string short-circuit to the
whole log), else the strict lexical filter. -/
def get_new_entries_since_timestamp (changes_data : List JValue) (last_timestamp : JValue) :
    Except PyExc (List JValue) :=
  if !last_timestamp.truthy then .ok changes_data
  else filterNewer changes_data last_timestamp

/-- `defaultdict(list)[k].append(v)`: append under the first key equal to
`k`, else add a new group at the end (insertion order). -/
def dinsert {α : Type} : List (JValue × List α) → JValue → α → List (JValue × List α)
  | [], k, v => [(k, [v])]
  | (k0, vs) :: rest, k, v =>
    if pyEq k0 k then (k0, vs ++ [v]) :: rest
    else (k0, vs) :: dinsert rest k v

/-- The interface loop of `parse_changes_by_team`'s `initial` branch
(lines 81-96): one `(team, team_entry)` pair per interface, skipping
team `"-"`. -/
def ifacePairs (ts : JValue) : List JValue → Except PyExc (List (JValue × JValue))
  | [] => .ok []
  | iface :: rest =>
    match pyGetD iface "team" (.str "required_versions") with
    | .error e => .error e
    | .ok team =>
      match ifacePairs ts rest with
      | .error e => .error e
      | .ok tail =>
        .ok (if pyEq team (.str "-") then tail
             else (team, JValue.obj [("timestamp", ts), ("type", .str "initial"),
                                     ("team", team), ("interface_data", iface)]) :: tail)

/-- The network loop of `parse_changes_by_team`'s `initial` branch. -/
def initialPairsOf (ts : JValue) : List JValue → Except PyExc (List (JValue × JValue))
  | [] => .ok []
  | network :: rest =>
    match pyGetD network "interface" (.arr []) with
    | .error e => .error e
    | .ok ifV =>
      match pyIter ifV with
      | .error e => .error e
      | .ok ifs =>
        match ifacePairs ts ifs with
        | .error e => .error e
        | .ok ps =>
          match initialPairsOf ts rest with
          | .error e => .error e
          | .ok ps2 => .ok (ps ++ ps2)

/-- The change loop of `parse_changes_by_team`'s `changes` branch
(lines 98-115): one `(team, team_entry)` pair per change record, skipping
team `"-"`. -/
def changePairs (ts : JValue) : List JValue → Except PyExc (List (JValue × JValue))
  | [] => .ok []
  | change :: rest =>
    match pyGetD change "team" (.str "required_versions") with
    | .error e => .error e
    | .ok team =>
      match changePairs ts rest with
      | .error e => .error e
      | .ok tail =>
        .ok (if pyEq team (.str "-") then tail
             else (team, JValue.obj [("timestamp", ts), ("type", .str "change"),
                                     ("change_data", change)]) :: tail)

/-- The `(team, team_entry)` pairs one log entry contributes, in order. -/
def parseEntryPairs (e : JValue) : Except PyExc (List (JValue × JValue)) :=
  match pyGetD e "timestamp" (.str "") with
  | .error ex => .error ex
  | .ok ts =>
    match pyGetD e "type" .null with
    | .error ex => .error ex
    | .ok ty =>
      if pyEq ty (.str "initial") then
        match pyGetD e "state" (.obj []) with
        | .error ex => .error ex
        | .ok st =>
          match pyGetD st "networks" (.arr []) with
          | .error ex => .error ex
          | .ok networksV =>
            match pyIter networksV with
            | .error ex => .error ex
            | .ok nets => initialPairsOf ts nets
      else
        match pyInStr "changes" e with
        | .error ex => .error ex
        | .ok hasCh =>
          if hasCh then
            match pyGetD e "changes" (.arr []) with
            | .error ex => .error ex
            | .ok chV =>
              match pyIter chV with
              | .error ex => .error ex
              | .ok chs => changePairs ts chs
          else .ok []

/-- Insert a run of `(team, team_entry)` pairs into the `defaultdict`;
`team_data[team]` raises `TypeError` on an unhashable team. -/
def insertPairs : List (JValue × List JValue) → List (JValue × JValue) →
    Except PyExc (List (JValue × List JValue))
  | td, [] => .ok td
  | td, (k, v) :: rest =>
    if hashable k then insertPairs (dinsert td k v) rest
    else .error .typeError

/-- The entry loop of `parse_changes_by_team`, threading the `defaultdict`. -/
def parseGo : List (JValue × List JValue) → List JValue →
    Except PyExc (List (JValue × List JValue))
  | td, [] => .ok td
  | td, e :: rest =>
    match parseEntryPairs e with
    | .error ex => .error ex
    | .ok ps =>
      match insertPairs td ps with
      | .error ex => .error ex
      | .ok td2 => parseGo td2 rest

/-- `gap_filler.parse_changes_by_team`: group per-entry `(team, team_entry)`
pairs by team in first-insertion key order. -/
def parse_changes_by_team (changes_data : List JValue) :
    Except PyExc (List (JValue × List JValue)) :=
  parseGo [] changes_data

/-- The comparison fold of `max(entry.get("timestamp", "") for ...)`:
ties keep the earlier value. -/
def maxFoldJ : JValue → List JValue → Except PyExc JValue
  | m, [] => .ok m
  | m, e :: rest =>
    match pyGetD e "timestamp" (.str "") with
    | .error ex => .error ex
    | .ok t =>
      match pyGtB t m with
      | .error ex => .error ex
      | .ok b => maxFoldJ (if b then t else m) rest

/-- `max(entry.get("timestamp", "") for entry in new_entries)` (line 185);
`ValueError` on an empty sequence. -/
def maxTimestamp : List JValue → Except PyExc JValue
  | [] => .error .valueError
  | e :: rest =>
    match pyGetD e "timestamp" (.str "") with
    | .error ex => .error ex
    | .ok t => maxFoldJ t rest

/-- One run of `gap_filler.main`, with file I/O abstracted: the source log
and the persisted `GFState` come in; out go the per-team JSON appends
actually performed, as `(team, appended entries)` in write order
(filename sanitization and on-disk layout are out of scope per the spec),
paired with the saved state (`.error` when the run raised — appends already
performed are still reported, since `max(...)` on line 185 runs after the
append loop; the state file is only written at the very end). -/
def runGapFiller (changes_data : List JValue) (st : GFState) :
    List (JValue × List JValue) × Except PyExc GFState :=
  if !st.migration_completed then ([], .ok st)
  else if changes_data.isEmpty then ([], .ok st)
  else
    match get_new_entries_since_timestamp changes_data st.last_processed_timestamp with
    | .error e => ([], .error e)
    | .ok new_entries =>
      if new_entries.isEmpty then ([], .ok st)
      else
        match parse_changes_by_team new_entries with
        | .error e => ([], .error e)
        | .ok team_changes =>
          let writes := team_changes.filter (fun p => !p.2.isEmpty)
          let entries_processed := (writes.map (fun p => p.2.length)).sum
          match maxTimestamp new_entries with
          | .error e => (writes, .error e)
          | .ok latest =>
            (writes, .ok ⟨latest, st.migration_completed,
                          st.total_entries_processed + entries_processed⟩)

/-- `n` successive runs of the gap filler on a fixed source log, accumulating
writes and threading the saved state. -/
def gfIter (changes_data : List JValue) : Nat → GFState →
    List (JValue × List JValue) × Except PyExc GFState
  | 0, st => ([], .ok st)
  | n + 1, st =>
    match runGapFiller changes_data st with
    | (w, .ok st') =>
      match gfIter changes_data n st' with
      | (w2, r) => (w ++ w2, r)
    | (w, .error e) => (w, .error e)

/-- The grouping loop of `team_interfaces_tracker.main`'s diff branch
(lines 357-360): `team_changes[change['team']].append(change)`. -/
def groupChangesByTeam : List (JValue × List ChangeRecord) → List ChangeRecord →
    Except PyExc (List (JValue × List ChangeRecord))
  | g, [] => .ok g
  | g, r :: rest =>
    if hashable r.team then groupChangesByTeam (dinsert g r.team r) rest
    else .error .typeError

/-- `team_interfaces_tracker.save_team_changes`, as the per-team appends it
performs: groups that are non-empty and whose team is not the `"-"`
sentinel (lines 248-254); each surviving group is appended to its team's
partition (the JSON write wraps it in a `change` batch, the SQL write emits
one statement per record — sinks are out of scope). -/
def save_team_changes (team_changes : List (JValue × List ChangeRecord)) :
    List (JValue × List ChangeRecord) :=
  team_changes.filter (fun p => !p.2.isEmpty && !(pyEq p.1 (.str "-")))

/-- The full direct-diff partitioning path: group detected records by team,
then write via `save_team_changes`. -/
def directDiffWrites (recs : List ChangeRecord) :
    Except PyExc (List (JValue × List ChangeRecord)) :=
  match groupChangesByTeam [] recs with
  | .error e => .error e
  | .ok g => .ok (save_team_changes g)

/-- The interface loop of the tracker's initial-run branch (lines 308-319):
every interface is grouped under its team (default `"unknown"`). -/
def initialIfaceGroups (ts : String) : List (JValue × List JValue) → List JValue →
    Except PyExc (List (JValue × List JValue))
  | g, [] => .ok g
  | g, iface :: rest =>
    match pyGetD iface "team" (.str "unknown") with
    | .error e => .error e
    | .ok team =>
      if hashable team then
        initialIfaceGroups ts
          (dinsert g team (.obj [("timestamp", .str ts), ("type", .str "initial"),
                                 ("team", team), ("interface_data", iface)])) rest
      else .error .typeError

/-- The network loop of the tracker's initial-run branch (lines 307-319). -/
def initialGroups (ts : String) : List (JValue × List JValue) → List JValue →
    Except PyExc (List (JValue × List JValue))
  | g, [] => .ok g
  | g, network :: rest =>
    match pyGetD network "interface" (.arr []) with
    | .error e => .error e
    | .ok ifV =>
      match pyIter ifV with
      | .error e => .error e
      | .ok ifs =>
        match initialIfaceGroups ts g ifs with
        | .error e => .error e
        | .ok g2 => initialGroups ts g2 rest

/-- The tracker's initial-run partitioning (lines 303-333): group every
interface under its team, then append each group except team `"-"`
(lines 322-325). -/
def initialPartitionWrites (current_state : JValue) (ts : String) :
    Except PyExc (List (JValue × List JValue)) :=
  match pyGetD current_state "networks" (.arr []) with
  | .error e => .error e
  | .ok networksV =>
    match pyIter networksV with
    | .error e => .error e
    | .ok nets =>
      match initialGroups ts [] nets with
      | .error e => .error e
      | .ok g => .ok (g.filter (fun p => !(pyEq p.1 (.str "-"))))

/-- `v.isStr`: string test. -/
def JValue.isStr : JValue → Bool
  | .str _ => true
  | _ => false

/-- The timestamp a log entry carries, for specification purposes: the
`"timestamp"` value when the entry is a dict with a string there, `""`
otherwise (mirroring `entry.get("timestamp", "")`). -/
def tsOf : JValue → String
  | .obj kvs =>
    match jlookup kvs "timestamp" with
    | some (.str s) => s
    | _ => ""
  | _ => ""

/-- The entries a sequence of `(team, data)` appends contributes to team
`k`'s partition, in order (Python dict keys match by `==`). -/
def writtenTo {α : Type} (k : JValue) : List (JValue × List α) → List α
  | [] => []
  | p :: rest => (if pyEq p.1 k then p.2 else []) ++ writtenTo k rest

/-- A source log sorted non-decreasingly by entry timestamp. -/
def SortedByTs (log : List JValue) : Prop :=
  log.Pairwise (fun a b => pyStrLt (tsOf b) (tsOf a) = false)

/-- Well-formed change record inside a `changes` log entry: a dict whose
`team`, if present, is a string. -/
def WFChangeRec (c : JValue) : Bool :=
  match c with
  | .obj kvs =>
    match jlookup kvs "team" with
    | some t => t.isStr
    | none => true
  | _ => false

/-- Well-formed interface inside an `initial` log entry. -/
def WFIface (i : JValue) : Bool :=
  match i with
  | .obj kvs =>
    match jlookup kvs "team" with
    | some t => t.isStr
    | none => true
  | _ => false

/-- Well-formed network inside an `initial` log entry: a dict whose
`interface`, if present, is a list of well-formed interfaces. -/
def WFNetwork (n : JValue) : Bool :=
  match n with
  | .obj kvs =>
    match jlookup kvs "interface" with
    | some (.arr il) => il.all WFIface
    | some _ => false
    | none => true
  | _ => false

/-- Well-formed log entry per the ChangeBatch data model: a dict with a
non-empty string timestamp whose `initial` state (or `changes` list)
has the networks → interface (or change-record) shape with string teams. -/
def WFEntry (e : JValue) : Bool :=
  match e with
  | .obj kvs =>
    (match jlookup kvs "timestamp" with
     | some (.str s) => !s.isEmpty
     | _ => false) &&
    (if pyEq ((jlookup kvs "type").getD .null) (.str "initial") then
       match (jlookup kvs "state").getD (.obj []) with
       | .obj skvs =>
         match jlookup skvs "networks" with
         | some (.arr nets) => nets.all WFNetwork
         | some _ => false
         | none => true
       | _ => false
     else
       match jlookup kvs "changes" with
       | some (.arr chs) => chs.all WFChangeRec
       | some _ => false
       | none => true)
  | _ => false

/-- A persisted `last_processed_timestamp` per the MergeState data model:
`null` (unset) or a string. -/
def lastOk : JValue → Bool
  | .null => true
  | .str _ => true
  | _ => false

/-- Object (dict) test. -/
def isObjB : JValue → Bool
  | .obj _ => true
  | _ => false

/-- Well-formed snapshot for the path classifier's fallback lookups: an
object whose `networks`, if present, is a list of objects whose
`interface`, if present, is a list of objects whose `settings`, if present,
is a list of objects. -/
def wfSnapIface (i : JValue) : Bool :=
  match i with
  | .obj kvs =>
    match jlookup kvs "settings" with
    | some (.arr sl) => sl.all isObjB
    | some _ => false
    | none => true
  | _ => false

/-- Well-formed network inside a snapshot (see `wfSnapIface`). -/
def wfSnapNet (n : JValue) : Bool :=
  match n with
  | .obj kvs =>
    match jlookup kvs "interface" with
    | some (.arr il) => il.all wfSnapIface
    | some _ => false
    | none => true
  | _ => false

/-- Well-formed snapshot (see `wfSnapIface`). -/
def WFSnapshot (cs : JValue) : Bool :=
  match cs with
  | .obj kvs =>
    match jlookup kvs "networks" with
    | some (.arr nets) => nets.all wfSnapNet
    | some _ => false
    | none => true
  | _ => false

/-- Specification-side positional diff: recurse on already-zipped,
already-indexed element pairs. -/
def seqDiffs : List (Nat × (JValue × JValue)) → List String → JValue →
    Except PyExc (List ChangeRecord)
  | [], _, _ => .ok []
  | p :: rest, path, root => do
    let a ← detect_changes p.2.1 p.2.2 (path ++ [toString p.1]) root
    let b ← seqDiffs rest path root
    .ok (a ++ b)

/-- Specification-side trailing-`added` records from indexed elements. -/
def addedAt : List (Nat × JValue) → List String → JValue → Except PyExc (List ChangeRecord)
  | [], _, _ => .ok []
  | (i, x) :: rest, path, root => do
    let r ← create_change_record (path ++ [toString i]) "added" .null x root
    let rs ← addedAt rest path root
    .ok (r :: rs)

/-- Specification-side trailing-`removed` records from indexed elements. -/
def removedAt : List (Nat × JValue) → List String → JValue → Except PyExc (List ChangeRecord)
  | [], _, _ => .ok []
  | (i, x) :: rest, path, root => do
    let r ← create_change_record (path ++ [toString i]) "removed" x .null root
    let rs ← removedAt rest path root
    .ok (r :: rs)

/-- The service component the literal-marker tier resolves, given the index
`t` of the first `"team"` segment: the segment after the first `"service"`
marker at or after `t` when that marker has a successor, `None` (null) when
the marker is the final segment, and `"interface"` when there is no such
marker. -/
def serviceResolution (pp : List String) (t : Nat) : JValue :=
  if (pp.drop t).contains "service" then
    if t + List.indexOf "service" (pp.drop t) + 1 < pp.length then
      .str (pp.getD (t + List.indexOf "service" (pp.drop t) + 1) "")
    else .null
  else .str "interface"

/-- What the positional interface fallback computes for a path
`["networks", j, "interface", idx, f]`: the interface list of the FIRST
network only, indexed at `idx`, then its `team`; `.ok (null, null, f)` when
a lookup fails with a caught exception, the raw exception when it is not
caught, and service fixed to the implicit `"interface"` on success. -/
def fallbackResult (n0 : JValue) (idx : Nat) (f : String) :
    Except PyExc (JValue × JValue × String) :=
  match (do
      let il ← pySubscrStr n0 "interface"
      pySubscrNat il idx : Except PyExc JValue) with
  | .error e => if e.caught then .ok (.null, .null, f) else .error e
  | .ok idata =>
    match pySubscrStr idata "team" with
    | .error e => if e.caught then .ok (.null, .null, f) else .error e
    | .ok t => .ok (t, .str "interface", f)

/-- A path whose final segment (when any) is not an ignored field name. -/
def PathOKP (path : List String) : Prop :=
  ∀ s, path.getLast? = some s → IGNORED_FIELDS.contains s = false

/-- The `max` fold of `maxFoldJ`, on the timestamp strings themselves
(spec-side view of lines 185): ties keep the earlier value. -/
def maxTsL (t : String) : List String → String
  | [] => t
  | s :: rest => maxTsL (if pyStrLt t s then s else t) rest

/-- The new-entries subsequence one merge call processes (spec-side view of
`get_new_entries_since_timestamp` under a well-typed cursor): everything when
the cursor is unset (`None` or `""`), else the strict lexical filter. -/
def newOf (log : List JValue) : JValue → List JValue
  | .str s => if s.isEmpty then log else log.filter (fun e => pyStrLt s (tsOf e))
  | _ => log

/-- The values a run of `(team, team_entry)` pairs contributes to team `k`
(spec-side view of the `defaultdict` appends). -/
def pairsWritten (k : JValue) : List (JValue × JValue) → List JValue
  | [] => []
  | p :: rest => (if pyEq p.1 k then [p.2] else []) ++ pairsWritten k rest

/-- The values a whole source log contributes to team `k` through
`parse_changes_by_team`, in log order (entries whose pair extraction would
raise contribute nothing; under well-formed entries that case is vacuous). -/
def logPairsWritten (k : JValue) : List JValue → List JValue
  | [] => []
  | e :: rest =>
    (match parseEntryPairs e with
     | .ok ps => pairsWritten k ps
     | .error _ => []) ++ logPairsWritten k rest

/-- How many `(team, team_entry)` pairs one log entry expands to. -/
def entryPairCount (e : JValue) : Nat :=
  match parseEntryPairs e with
  | .ok ps => ps.length
  | .error _ => 0

/-- How many `(team, team_entry)` pairs a whole source log expands to:
the quantity `main` actually adds to `total_entries_processed`. -/
def logPairCount : List JValue → Nat
  | [] => 0
  | e :: rest => entryPairCount e + logPairCount rest

theorem digitChar_isDigit (m : Nat) (h : m < 10) : (Nat.digitChar m).isDigit = true := by
  interval_cases m <;> decide

theorem toDigitsCore_all_digits (f : Nat) : ∀ (n : Nat) (acc : List Char),
    (∀ c ∈ acc, c.isDigit = true) → ∀ c ∈ Nat.toDigitsCore 10 f n acc, c.isDigit = true := by
  induction f with
  | zero => intro n acc hacc c hc; exact hacc c hc
  | succ k ih =>
    intro n acc hacc c hc
    have hd : (Nat.digitChar (n % 10)).isDigit = true :=
      digitChar_isDigit _ (Nat.mod_lt _ (by omega))
    have hacc' : ∀ c ∈ Nat.digitChar (n % 10) :: acc, c.isDigit = true := by
      intro c hc
      rcases List.mem_cons.mp hc with h | h
      · subst h; exact hd
      · exact hacc c h
    rw [Nat.toDigitsCore] at hc
    by_cases hz : n / 10 = 0
    · simp only [hz, if_pos rfl] at hc
      exact hacc' c hc
    · simp only [if_neg hz] at hc
      exact ih (n / 10) _ hacc' c hc

theorem toString_nat_all_digits (n : Nat) : ∀ c ∈ (toString n).data, c.isDigit = true := by
  intro c hc
  have : (toString n).data = Nat.toDigitsCore 10 (n + 1) n [] := rfl
  rw [this] at hc
  exact toDigitsCore_all_digits (n + 1) n [] (by intro c hc; cases hc) c hc

theorem ne_of_nondigit_char (s : String) (hs : ∀ c ∈ s.data, c.isDigit = true)
    (t : String) (c : Char) (hct : c ∈ t.data) (hc : c.isDigit = false) : s ≠ t := by
  intro he
  subst he
  rw [hs c hct] at hc
  cases hc

theorem natStr_not_ignored (n : Nat) : IGNORED_FIELDS.contains (toString n) = false := by
  have h1 : toString n ≠ "latest_block_height" :=
    ne_of_nondigit_char _ (toString_nat_all_digits n) _ 'l' (by decide) (by decide)
  have h2 : toString n ≠ "script_start_time" :=
    ne_of_nondigit_char _ (toString_nat_all_digits n) _ 's' (by decide) (by decide)
  have h3 : toString n ≠ "script_end_time" :=
    ne_of_nondigit_char _ (toString_nat_all_digits n) _ 's' (by decide) (by decide)
  have h4 : toString n ≠ "reference_latest_block_height" :=
    ne_of_nondigit_char _ (toString_nat_all_digits n) _ 'r' (by decide) (by decide)
  simp [IGNORED_FIELDS, List.contains, h1, h2, h3, h4]

/-- Claim C7: with `migration_completed` false, a single merge call — and any
number of successive merge calls — performs zero partition writes and leaves
the MergeState exactly as it was. -/
theorem merge_gated_noop (log : List JValue) (st : GFState) (n : Nat)
    (hgate : st.migration_completed = false) :
    runGapFiller log st = ([], .ok st) ∧ gfIter log n st = ([], .ok st) := by
  have hrun : runGapFiller log st = ([], .ok st) := by
    unfold runGapFiller
    rw [hgate]
    rfl
  refine ⟨hrun, ?_⟩
  induction n with
  | zero => rfl
  | succ k ih =>
    simp [gfIter, hrun, ih]

/-- Witness for C7 at a concrete gated state and non-empty log. -/
theorem merge_gated_noop_witness :
    runGapFiller [JValue.obj [("timestamp", .str "2024"), ("changes", .arr [.obj [("team", .str "a")]])]]
        ⟨.str "x", false, 3⟩ = ([], .ok ⟨.str "x", false, 3⟩) ∧
    gfIter [JValue.obj [("timestamp", .str "2024"), ("changes", .arr [.obj [("team", .str "a")]])]]
        5 ⟨.str "x", false, 3⟩ = ([], .ok ⟨.str "x", false, 3⟩) :=
  merge_gated_noop _ _ 5 rfl


theorem mem_of_getElem_opt {α : Type} : ∀ (l : List α) (i : Nat) (x : α), l[i]? = some x → x ∈ l
  | a :: as, 0, x, h => by
    rw [List.getElem?_cons_zero] at h
    cases h
    exact List.mem_cons_self _ _
  | a :: as, i + 1, x, h => by
    rw [List.getElem?_cons_succ] at h
    exact List.mem_cons_of_mem _ (mem_of_getElem_opt as i x h)

theorem settingsFetch_safety (idkvs : List (String × JValue))
    (hid : wfSnapIface (.obj idkvs) = true) (k : Nat) :
    (match settingsFetch (.obj idkvs) k with
     | .ok _ => True
     | .error e => e.caught = true) := by
  unfold settingsFetch
  simp only [wfSnapIface] at hid
  simp only [pySubscrStr, bind, Except.bind]
  cases hset : jlookup idkvs "settings" with
  | none => simp [PyExc.caught]
  | some sv =>
    rw [hset] at hid
    cases sv with
    | arr sl =>
      simp only [pyLen]
      by_cases hb : k < sl.length
      · simp only [hb, if_pos rfl, pySubscrNat]
        cases hse : sl[k]? with
        | none => simp [PyExc.caught, hse]
        | some se =>
          have hsew : isObjB se = true := by
            have := List.all_eq_true.mp hid
            exact this se (mem_of_getElem_opt _ _ _ hse)
          simp only [hse]
          cases se with
          | obj sekvs =>
            cases hsvc : jlookup sekvs "service" with
            | none => simp [PyExc.caught, hsvc]
            | some svc => simp [PyExc.caught, hsvc, pure, Except.pure]
          | null => cases hsew
          | bool b => cases hsew
          | num n => cases hsew
          | str s => cases hsew
          | arr a => cases hsew
      · rw [if_neg hb]
        exact trivial
    | null => cases hid
    | bool b => cases hid
    | num n => cases hid
    | str s => cases hid
    | obj o => cases hid

theorem fallbackStep_safety (cs : JValue) (hwf : WFSnapshot cs = true)
    (pp : List String) (i : Nat) (st : JValue × JValue) :
    (match fallbackStep pp cs i st with
     | .inl _ => True
     | .inr (e, _) => e.caught = true) := by
  cases cs with
  | obj kvs =>
    unfold fallbackStep interfaceFetch
    simp only [WFSnapshot] at hwf
    simp only [pySubscrStr, bind, Except.bind]
    cases hnet : jlookup kvs "networks" with
    | none => simp [PyExc.caught]
    | some nets =>
      rw [hnet] at hwf
      cases nets with
      | arr netl =>
        simp only []
        cases h0 : netl[0]? with
        | none => simp [PyExc.caught, pySubscrNat, h0]
        | some n0 =>
          have hn0 : wfSnapNet n0 = true := by
            have := List.all_eq_true.mp hwf
            exact this n0 (mem_of_getElem_opt _ _ _ h0)
          simp only [pySubscrNat, h0]
          cases n0 with
          | obj n0kvs =>
            simp only [wfSnapNet] at hn0
            cases hif : jlookup n0kvs "interface" with
            | none => simp [PyExc.caught, hif]
            | some ifv =>
              rw [hif] at hn0
              cases ifv with
              | arr il =>
                simp only [hif]
                cases hidx : il[intOf (pp.getD (i + 1) "")]? with
                | none => simp [PyExc.caught, hidx]
                | some idata =>
                  have hid : wfSnapIface idata = true := by
                    have := List.all_eq_true.mp hn0
                    exact this idata (mem_of_getElem_opt _ _ _ hidx)
                  simp only [hidx]
                  cases idata with
                  | obj idkvs =>
                    simp only [wfSnapIface] at hid
                    cases hteam : jlookup idkvs "team" with
                    | none => simp [PyExc.caught, hteam]
                    | some t =>
                      simp only [hteam]
                      by_cases hsp : pp.contains "settings" = true
                      · rw [if_pos hsp]
                        by_cases hg : List.indexOf "settings" pp + 1 < pp.length ∧
                            isdigitS (pp.getD (List.indexOf "settings" pp + 1) "") = true
                        · rw [if_pos hg]
                          have hsafe := settingsFetch_safety idkvs hid
                              (intOf (pp.getD (List.indexOf "settings" pp + 1) ""))
                          cases hsf : settingsFetch (JValue.obj idkvs)
                              (intOf (pp.getD (List.indexOf "settings" pp + 1) "")) with
                          | error e =>
                            rw [hsf] at hsafe
                            exact hsafe
                          | ok r =>
                            cases r with
                            | none => exact trivial
                            | some svc => exact trivial
                        · rw [if_neg hg]
                          exact trivial
                      · rw [if_neg hsp]
                        exact trivial
                  | null => cases hid
                  | bool b => cases hid
                  | num n => cases hid
                  | str s => cases hid
                  | arr a => cases hid
              | null => cases hn0
              | bool b => cases hn0
              | num n => cases hn0
              | str s => cases hn0
              | obj o => cases hn0
          | null => cases hn0
          | bool b => cases hn0
          | num n => cases hn0
          | str s => cases hn0
          | arr a => cases hn0
      | null => cases hwf
      | bool b => cases hwf
      | num n => cases hwf
      | str s => cases hwf
      | obj o => cases hwf
  | null => cases hwf
  | bool b => cases hwf
  | num n => cases hwf
  | str s => cases hwf
  | arr a => cases hwf

theorem phase2Go_safety (pp : List String) (cs : JValue) (hwf : WFSnapshot cs = true) :
    ∀ (l : List (Nat × String)) (st : JValue × JValue),
      (match phase2Go pp cs l st with
       | .inl _ => True
       | .inr (e, _) => e.caught = true) := by
  intro l
  induction l with
  | nil => intro st; exact trivial
  | cons hd tl ih =>
    intro st
    obtain ⟨i, part⟩ := hd
    rw [phase2Go]
    by_cases hc : part = "interface" ∧ i + 1 < pp.length ∧ isdigitS (pp.getD (i + 1) "") = true
    · rw [if_pos hc]
      have hs := fallbackStep_safety cs hwf pp i st
      cases hfs : fallbackStep pp cs i st with
      | inl st2 => exact ih st2
      | inr err =>
        rw [hfs] at hs
        obtain ⟨e, st2⟩ := err
        exact hs
    · rw [if_neg hc]
      exact ih st

/-- Claim C4 counterexample: on the empty structural path the Path
Classifier does raise (`path_parts[-1]` is an uncaught `IndexError`), so
"never raises ... returns `(None, None, last path component)`" fails as
stated. -/
theorem classifier_empty_path_raises :
    get_change_info [] (.obj [("networks", .arr [])]) = .error .indexError := rfl

/-- Claim C4 (amended): on every NON-empty structural path and every
snapshot with the networks → interface → settings object shape, the Path
Classifier never raises: it returns a triple whose `field` is the last path
component, every fallback-lookup failure being caught (team and service are
left `None` when the failure precedes the team assignment; a settings
failure after a successful team lookup keeps the team). -/
theorem classifier_total_on_wf (pp : List String) (cs : JValue)
    (hne : pp ≠ []) (hwf : WFSnapshot cs = true) :
    ∃ t s, get_change_info pp cs = .ok (t, s, pp.getLast hne) := by
  have key : ∀ field, pp.getLast? = some field →
      ∃ t s, get_change_info pp cs = .ok (t, s, field) := by
    intro field hl
    simp only [get_change_info, hl]
    by_cases h1 : pp.headD "" = "required_versions"
    · rw [if_pos h1]
      exact ⟨_, _, rfl⟩
    · rw [if_neg h1]
      by_cases h2 : pp.headD "" = "networks"
      · rw [if_pos h2]
        cases hn : (phase1 pp).1.isNull with
        | false => exact ⟨_, _, by rw [if_neg (by simp [hn])]⟩
        | true =>
          rw [if_pos (by simp [hn])]
          cases ht : cs.truthy with
          | false => exact ⟨_, _, by rw [if_neg (by simp [ht])]⟩
          | true =>
            rw [if_pos (by simp [ht])]
            cases cs with
            | obj kvs =>
              simp only [pyInStr]
              cases hb : (jlookup kvs "networks").isSome with
              | false => exact ⟨_, _, by rw [if_neg (by simp [hb])]⟩
              | true =>
                rw [if_pos (by simp [hb])]
                have hs := phase2Go_safety pp (.obj kvs) hwf pp.enum (phase1 pp)
                cases hp : phase2Go pp (.obj kvs) pp.enum (phase1 pp) with
                | inl st2 => exact ⟨_, _, rfl⟩
                | inr err =>
                  rw [hp] at hs
                  obtain ⟨e, st2⟩ := err
                  have hs2 : e.caught = true := hs
                  refine ⟨st2.1, st2.2, ?_⟩
                  show (if e.caught = true then Except.ok (st2.1, st2.2, field)
                        else Except.error e) = Except.ok (st2.1, st2.2, field)
                  rw [if_pos hs2]
            | null => cases hwf
            | bool b => cases hwf
            | num n => cases hwf
            | str s => cases hwf
            | arr a => cases hwf
      · rw [if_neg h2]
        exact ⟨_, _, rfl⟩
  exact key _ (List.getLast?_eq_getLast pp hne)

/-- Witness for the amended C4 at a concrete path and snapshot whose
fallback lookup fails (absent interface index — caught, unattributed). -/
theorem classifier_total_on_wf_witness :
    (get_change_info ["networks", "interface", "7"]
      (.obj [("networks", .arr [.obj [("interface", .arr [])]])])).isOk = true := by
  obtain ⟨t, s, h⟩ := classifier_total_on_wf ["networks", "interface", "7"]
    (.obj [("networks", .arr [.obj [("interface", .arr [])]])]) (by simp) rfl
  rw [h]
  rfl


/-- Claim C8 counterexample: the path `["foo", "team", "X"]` does not start
with the version-requirements root and contains a `"team"` segment followed
by another segment, yet the classifier resolves team to `None` (the marker
tier only runs under a `"networks"` root), not to `"X"`. -/
theorem team_marker_counterexample :
    get_change_info ["foo", "team", "X"] (.obj []) = .ok (.null, .null, "X") ∧
    (match get_change_info ["foo", "team", "X"] (.obj []) with
     | .ok (t, _, _) => t.isNull
     | .error _ => false) = true :=
  ⟨rfl, rfl⟩

/-- Claim C8 (amended): on every path that starts with the `"networks"` root
and contains a `"team"` segment followed by at least one more segment, the
classifier resolves team to the segment after the first `"team"` marker and
service per `serviceResolution` (successor of the first `"service"` marker
at or after the team marker; `None` when that marker is last; else
`"interface"`), independently of the snapshot. -/
theorem team_marker_resolution (pp : List String) (cs : JValue) (t : Nat)
    (hroot : pp.headD "" = "networks")
    (hmem : pp.contains "team" = true)
    (ht : t = List.indexOf "team" pp)
    (hsucc : t + 1 < pp.length)
    (hne : pp ≠ []) :
    get_change_info pp cs =
      .ok (.str (pp.getD (t + 1) ""), serviceResolution pp t, pp.getLast hne) := by
  have hph : phase1 pp = (.str (pp.getD (t + 1) ""), serviceResolution pp t) := by
    subst ht
    unfold phase1 serviceResolution
    rw [if_pos hmem, if_pos hsucc]
  have key : ∀ field, pp.getLast? = some field →
      get_change_info pp cs =
        .ok (.str (pp.getD (t + 1) ""), serviceResolution pp t, field) := by
    intro field hl
    simp only [get_change_info, hl]
    rw [if_neg (by rw [hroot]; decide), if_pos hroot]
    simp only [hph, JValue.isNull]
    simp
  exact key _ (List.getLast?_eq_getLast pp hne)

/-- Witness for the amended C8: concrete path with both markers, snapshot a
bare scalar (the result does not consult it). -/
theorem team_marker_resolution_witness :
    get_change_info ["networks", "team", "alphateam", "service", "rpc", "url"] (.num 7) =
      .ok (.str "alphateam",
        serviceResolution ["networks", "team", "alphateam", "service", "rpc", "url"] 1,
        (["networks", "team", "alphateam", "service", "rpc", "url"] : List String).getLast
          (by simp)) :=
  team_marker_resolution ["networks", "team", "alphateam", "service", "rpc", "url"]
    (.num 7) 1 rfl rfl rfl (by decide) (by simp)


theorem isdigitS_ne (s t : String) (hs : isdigitS s = true) (c : Char)
    (hct : c ∈ t.data) (hc : c.isDigit = false) : s ≠ t := by
  intro he
  subst he
  have hall := (Bool.and_eq_true _ _ |>.mp hs).2
  have := List.all_eq_true.mp hall c hct
  rw [this] at hc
  cases hc

theorem gci_fallback_form (pp : List String) (cs : JValue) (field : String)
    (hlast : pp.getLast? = some field)
    (hhead : pp.headD "" = "networks")
    (hph : (phase1 pp).1.isNull = true)
    (htr : cs.truthy = true)
    (hin : pyInStr "networks" cs = .ok true) :
    get_change_info pp cs =
      (match phase2Go pp cs pp.enum (phase1 pp) with
       | .inl st => .ok (st.1, st.2, field)
       | .inr (e, st) => if e.caught = true then .ok (st.1, st.2, field) else .error e) := by
  simp only [get_change_info, hlast]
  rw [if_neg (by rw [hhead]; decide), if_pos hhead, if_pos hph, if_pos htr, hin]
  rfl

theorem phase2Go_cons_neg (pp : List String) (cs : JValue) (i : Nat) (part : String)
    (rest : List (Nat × String)) (st : JValue × JValue)
    (h : ¬(part = "interface" ∧ i + 1 < pp.length ∧ isdigitS (pp.getD (i + 1) "") = true)) :
    phase2Go pp cs ((i, part) :: rest) st = phase2Go pp cs rest st := by
  simp only [phase2Go]
  rw [if_neg h]

theorem phase2Go_cons_pos (pp : List String) (cs : JValue) (i : Nat) (part : String)
    (rest : List (Nat × String)) (st : JValue × JValue)
    (h : part = "interface" ∧ i + 1 < pp.length ∧ isdigitS (pp.getD (i + 1) "") = true) :
    phase2Go pp cs ((i, part) :: rest) st =
      (match fallbackStep pp cs i st with
       | .inl st2 => phase2Go pp cs rest st2
       | .inr err => .inr err) := by
  simp only [phase2Go]
  rw [if_pos h]

theorem fallbackStep_no_settings (pp : List String) (kvs : List (String × JValue))
    (i : Nat) (st : JValue × JValue) (n0 : JValue) (rest : List JValue)
    (hjl : jlookup kvs "networks" = some (.arr (n0 :: rest)))
    (hcs : pp.contains "settings" = false) :
    fallbackStep pp (.obj kvs) i st =
      (match (do
          let il ← pySubscrStr n0 "interface"
          pySubscrNat il (intOf (pp.getD (i + 1) "")) : Except PyExc JValue) with
       | .error e => .inr (e, st)
       | .ok idata =>
         match pySubscrStr idata "team" with
         | .error e => .inr (e, st)
         | .ok t => .inl (t, .str "interface")) := by
  unfold fallbackStep interfaceFetch
  have h0 : pySubscrNat (.arr (n0 :: rest)) 0 = .ok n0 := by
    simp [pySubscrNat]
  conv_lhs => rw [show pySubscrStr (JValue.obj kvs) "networks" = .ok (.arr (n0 :: rest)) by
    simp [pySubscrStr, hjl]]
  simp only [bind, Except.bind, h0, hcs]
  cases hA : pySubscrStr n0 "interface" with
  | error e => rfl
  | ok il =>
    cases hB : pySubscrNat il (intOf (pp.getD (i + 1) "")) with
    | error e => rfl
    | ok idata =>
      cases hC : pySubscrStr idata "team" with
      | error e => rfl
      | ok t => rfl

/-- Claim C10: a change resolved through the positional interface fallback is
looked up ONLY in the first network of the snapshot (`networks[0]`): for a
path `["networks", j, "interface", idx, f]` the result equals
`fallbackResult n0 (int idx) f`, which mentions the head network `n0` alone —
whatever network index `j` the path itself carries and whatever the other
networks contain; when that lookup fails (caught), the record is
unattributed (`team = None`). -/
theorem fallback_uses_first_network (js idxS f : String) (n0 : JValue) (rest : List JValue)
    (hjs : isdigitS js = true) (hidx : isdigitS idxS = true)
    (hf1 : f ≠ "team") (hf2 : f ≠ "settings") :
    get_change_info ["networks", js, "interface", idxS, f]
        (.obj [("networks", .arr (n0 :: rest))]) = fallbackResult n0 (intOf idxS) f := by
  have hjt : js ≠ "team" := isdigitS_ne js "team" hjs 't' (by decide) (by decide)
  have hji : js ≠ "interface" := isdigitS_ne js "interface" hjs 'i' (by decide) (by decide)
  have hjse : js ≠ "settings" := isdigitS_ne js "settings" hjs 'e' (by decide) (by decide)
  have hit : idxS ≠ "team" := isdigitS_ne idxS "team" hidx 't' (by decide) (by decide)
  have hii : idxS ≠ "interface" := isdigitS_ne idxS "interface" hidx 'i' (by decide) (by decide)
  have hise : idxS ≠ "settings" := isdigitS_ne idxS "settings" hidx 'e' (by decide) (by decide)
  have hct : List.contains ["networks", js, "interface", idxS, f] "team" = false := by
    simp only [List.contains_cons, List.contains_nil, Bool.or_eq_false_iff]
    exact ⟨by decide, beq_eq_false_iff_ne.mpr (Ne.symm hjt), by decide,
      beq_eq_false_iff_ne.mpr (Ne.symm hit), beq_eq_false_iff_ne.mpr (Ne.symm hf1), trivial⟩
  have hcs : List.contains ["networks", js, "interface", idxS, f] "settings" = false := by
    simp only [List.contains_cons, List.contains_nil, Bool.or_eq_false_iff]
    exact ⟨by decide, beq_eq_false_iff_ne.mpr (Ne.symm hjse), by decide,
      beq_eq_false_iff_ne.mpr (Ne.symm hise), beq_eq_false_iff_ne.mpr (Ne.symm hf2), trivial⟩
  have hph : phase1 ["networks", js, "interface", idxS, f] = (.null, .null) := by
    unfold phase1
    rw [hct]
    rfl
  rw [gci_fallback_form ["networks", js, "interface", idxS, f]
    (.obj [("networks", .arr (n0 :: rest))]) f rfl rfl (by rw [hph]; rfl) rfl rfl]
  rw [hph]
  rw [show (["networks", js, "interface", idxS, f] : List String).enum =
    [(0, "networks"), (1, js), (2, "interface"), (3, idxS), (4, f)] from rfl]
  rw [phase2Go_cons_neg _ _ _ _ _ _ (by rintro ⟨h, -⟩; exact absurd h (by decide))]
  rw [phase2Go_cons_neg _ _ _ _ _ _ (by rintro ⟨h, -⟩; exact hji h)]
  rw [phase2Go_cons_pos ["networks", js, "interface", idxS, f]
    (.obj [("networks", .arr (n0 :: rest))]) 2 "interface" [(3, idxS), (4, f)]
    (.null, .null) ⟨rfl, by simp, hidx⟩]
  rw [fallbackStep_no_settings ["networks", js, "interface", idxS, f]
    [("networks", JValue.arr (n0 :: rest))] 2 (.null, .null) n0 rest (by simp [jlookup]) hcs]
  rw [show (["networks", js, "interface", idxS, f] : List String).getD (2 + 1) "" = idxS from rfl]
  unfold fallbackResult
  cases hA : (do
      let il ← pySubscrStr n0 "interface"
      pySubscrNat il (intOf idxS) : Except PyExc JValue) with
  | error e => rfl
  | ok idata =>
    cases hC : pySubscrStr idata "team" with
    | error e => simp only [hC]
    | ok t =>
      simp only [hC]
      rw [phase2Go_cons_neg _ _ _ _ _ _ (by rintro ⟨h, -⟩; exact hii h)]
      rw [phase2Go_cons_neg _ _ _ _ _ _ (by rintro ⟨-, h, -⟩; exact absurd h (by simp))]
      rfl

/-- Witness for C10: two networks with different teams; the path indexes
network `1` but the team resolves from network `0` (`fallbackResult` of the
head network). -/
theorem fallback_uses_first_network_witness :
    get_change_info ["networks", "1", "interface", "0", "url"]
        (.obj [("networks", .arr [
          .obj [("interface", .arr [.obj [("team", .str "alpha")]])],
          .obj [("interface", .arr [.obj [("team", .str "beta")]])]])]) =
      fallbackResult (.obj [("interface", .arr [.obj [("team", .str "alpha")]])])
        (intOf "0") "url" :=
  fallback_uses_first_network "1" "0" "url"
    (.obj [("interface", .arr [.obj [("team", .str "alpha")]])])
    [.obj [("interface", .arr [.obj [("team", .str "beta")]])]]
    (by decide) (by decide) (by decide) (by decide)

theorem commonRecords_eq_seqDiffs (path : List String) (root : JValue) :
    ∀ (oxs nxs : List JValue) (i : Nat),
      commonRecords oxs nxs i path root = seqDiffs (List.enumFrom i (oxs.zip nxs)) path root := by
  intro oxs
  induction oxs with
  | nil => intro nxs i; cases nxs <;> rfl
  | cons x xs ih =>
    intro nxs i
    cases nxs with
    | nil => rfl
    | cons y ys =>
      rw [List.zip_cons_cons, List.enumFrom_cons]
      rw [commonRecords, seqDiffs]
      cases hd : detect_changes x y (path ++ [toString i]) root with
      | error e => simp [bind, Except.bind]
      | ok here =>
        simp only [bind, Except.bind]
        rw [ih ys (i + 1)]
        cases seqDiffs (List.enumFrom (i + 1) (xs.zip ys)) path root <;> rfl

theorem listAdded_eq_addedAt (path : List String) (root : JValue) :
    ∀ (xs : List JValue) (i : Nat),
      listAddedRecords xs i path root = addedAt (List.enumFrom i xs) path root := by
  intro xs
  induction xs with
  | nil => intro i; rfl
  | cons x rest ih =>
    intro i
    rw [List.enumFrom_cons, listAddedRecords, addedAt]
    cases hd : create_change_record (path ++ [toString i]) "added" .null x root with
    | error e => simp [bind, Except.bind]
    | ok r =>
      simp only [bind, Except.bind]
      rw [ih (i + 1)]
      cases addedAt (List.enumFrom (i + 1) rest) path root <;> rfl

theorem listRemoved_eq_removedAt (path : List String) (root : JValue) :
    ∀ (xs : List JValue) (i : Nat),
      listRemovedRecords xs i path root = removedAt (List.enumFrom i xs) path root := by
  intro xs
  induction xs with
  | nil => intro i; rfl
  | cons x rest ih =>
    intro i
    rw [List.enumFrom_cons, listRemovedRecords, removedAt]
    cases hd : create_change_record (path ++ [toString i]) "removed" x .null root with
    | error e => simp [bind, Except.bind]
    | ok r =>
      simp only [bind, Except.bind]
      rw [ih (i + 1)]
      cases removedAt (List.enumFrom (i + 1) rest) path root <;> rfl

theorem enumFrom_drop {α : Type} : ∀ (n : Nat) (l : List α) (k : Nat),
    List.enumFrom (k + n) (l.drop n) = (List.enumFrom k l).drop n := by
  intro n
  induction n with
  | zero => intro l k; rfl
  | succ m ih =>
    intro l k
    cases l with
    | nil => simp
    | cons a as =>
      rw [List.drop_succ_cons, List.enumFrom_cons, List.drop_succ_cons]
      rw [show k + (m + 1) = (k + 1) + m by omega]
      exact ih as (k + 1)

/-- Claim C9: the Diff Engine compares two lists positionally up to the
shorter length (recursing per index), then records every trailing element of
the longer list as `added` (old `None`) or `removed` (new `None`) at its
decimal index; and concretely, diffing `[1, 2]` against `[1, 2, 3]` yields
exactly one record — path `"2"`, type `added`, old `None`, new `3`. -/
theorem list_diff_positional :
    (∀ (oxs nxs : List JValue) (path : List String) (root : JValue),
      detect_changes (.arr oxs) (.arr nxs) path root = do
        let c ← seqDiffs (oxs.zip nxs).enum path root
        let a ← addedAt ((nxs.enum).drop oxs.length) path root
        let r ← removedAt ((oxs.enum).drop nxs.length) path root
        .ok (c ++ a ++ r)) ∧
    detectChangesTop (.arr [.num 1, .num 2]) (.arr [.num 1, .num 2, .num 3]) =
      .ok [⟨.null, .null, "2", "2", "added", .null, .num 3⟩] := by
  constructor
  · intro oxs nxs path root
    rw [detect_changes]
    rw [commonRecords_eq_seqDiffs path root oxs nxs 0]
    rw [listAdded_eq_addedAt path root (nxs.drop oxs.length) oxs.length]
    rw [listRemoved_eq_removedAt path root (oxs.drop nxs.length) nxs.length]
    rw [show List.enumFrom oxs.length (nxs.drop oxs.length) = (nxs.enum).drop oxs.length by
      have := enumFrom_drop oxs.length nxs 0
      simpa [List.enum] using this]
    rw [show List.enumFrom nxs.length (oxs.drop nxs.length) = (oxs.enum).drop nxs.length by
      have := enumFrom_drop nxs.length oxs 0
      simpa [List.enum] using this]
    rw [show List.enumFrom 0 (oxs.zip nxs) = (oxs.zip nxs).enum from rfl]
    cases h1 : seqDiffs (oxs.zip nxs).enum path root with
    | error e => simp [bind, Except.bind]
    | ok c =>
      simp only [bind, Except.bind]
      cases h2 : addedAt ((nxs.enum).drop oxs.length) path root with
      | error e => rfl
      | ok a =>
        cases h3 : removedAt ((oxs.enum).drop nxs.length) path root with
        | error e => rfl
        | ok r => rfl
  · rfl

theorem gci_field (pp : List String) (cs : JValue) (t s : JValue) (f : String)
    (h : get_change_info pp cs = .ok (t, s, f)) : pp.getLast? = some f := by
  cases hl : pp.getLast? with
  | none =>
    simp only [get_change_info, hl] at h
    exact Except.noConfusion h
  | some field =>
    simp only [get_change_info, hl] at h
    repeat' split at h
    all_goals simp_all [Except.ok.injEq, Prod.mk.injEq]

theorem ccr_field (pp : List String) (ty : String) (o n root : JValue) (r : ChangeRecord)
    (h : create_change_record pp ty o n root = .ok r) : pp.getLast? = some r.field := by
  unfold create_change_record at h
  cases hg : get_change_info pp root with
  | error e => rw [hg] at h; cases h
  | ok tsf =>
    obtain ⟨t, s, f⟩ := tsf
    rw [hg] at h
    cases h
    exact gci_field pp root t s f hg

theorem getLast?_append_one {α : Type} (l : List α) (a : α) : (l ++ [a]).getLast? = some a := by
  simp

theorem pathOKP_key (path : List String) (k : String)
    (hk : IGNORED_FIELDS.contains k = false) : PathOKP (path ++ [k]) := by
  intro s hs
  rw [getLast?_append_one] at hs
  cases hs
  exact hk

theorem pathOKP_idx (path : List String) (i : Nat) : PathOKP (path ++ [toString i]) := by
  intro s hs
  rw [getLast?_append_one] at hs
  cases hs
  exact natStr_not_ignored i

theorem addedRecords_field (okvs : List (String × JValue)) (path : List String) (root : JValue) :
    ∀ (nkvs : List (String × JValue)) (rs : List ChangeRecord),
      addedRecords okvs nkvs path root = .ok rs →
      ∀ r ∈ rs, IGNORED_FIELDS.contains r.field = false := by
  intro nkvs
  induction nkvs with
  | nil =>
    intro rs h r hr
    cases h
    cases hr
  | cons kv rest ih =>
    obtain ⟨k, v⟩ := kv
    intro rs h r hr
    rw [addedRecords] at h
    by_cases hg : ((jlookup okvs k).isNone && !IGNORED_FIELDS.contains k) = true
    · rw [if_pos hg] at h
      cases hc : create_change_record (path ++ [k]) "added" .null v root with
      | error e => rw [hc] at h; exact Except.noConfusion h
      | ok r0 =>
        rw [hc] at h
        cases ht : addedRecords okvs rest path root with
        | error e => rw [ht] at h; exact Except.noConfusion h
        | ok rs0 =>
          rw [ht] at h
          injection h with h1
          subst h1
          rcases List.mem_cons.mp hr with rfl | hmem
          · have hf := ccr_field _ _ _ _ _ _ hc
            rw [getLast?_append_one] at hf
            injection hf with hf
            rw [← hf]
            have := (Bool.and_eq_true _ _ |>.mp hg).2
            simp only [Bool.not_eq_true'] at this
            exact this
          · exact ih rs0 ht r hmem
    · rw [if_neg hg] at h
      exact ih rs h r hr

theorem removedRecords_field (nkvs : List (String × JValue)) (path : List String) (root : JValue) :
    ∀ (okvs : List (String × JValue)) (rs : List ChangeRecord),
      removedRecords nkvs okvs path root = .ok rs →
      ∀ r ∈ rs, IGNORED_FIELDS.contains r.field = false := by
  intro okvs
  induction okvs with
  | nil =>
    intro rs h r hr
    cases h
    cases hr
  | cons kv rest ih =>
    obtain ⟨k, v⟩ := kv
    intro rs h r hr
    rw [removedRecords] at h
    by_cases hg : ((jlookup nkvs k).isNone && !IGNORED_FIELDS.contains k) = true
    · rw [if_pos hg] at h
      cases hc : create_change_record (path ++ [k]) "removed" v .null root with
      | error e => rw [hc] at h; exact Except.noConfusion h
      | ok r0 =>
        rw [hc] at h
        cases ht : removedRecords nkvs rest path root with
        | error e => rw [ht] at h; exact Except.noConfusion h
        | ok rs0 =>
          rw [ht] at h
          injection h with h1
          subst h1
          rcases List.mem_cons.mp hr with rfl | hmem
          · have hf := ccr_field _ _ _ _ _ _ hc
            rw [getLast?_append_one] at hf
            injection hf with hf
            rw [← hf]
            have := (Bool.and_eq_true _ _ |>.mp hg).2
            simp only [Bool.not_eq_true'] at this
            exact this
          · exact ih rs0 ht r hmem
    · rw [if_neg hg] at h
      exact ih rs h r hr

theorem listAddedRecords_field (path : List String) (root : JValue) :
    ∀ (xs : List JValue) (i : Nat) (rs : List ChangeRecord),
      listAddedRecords xs i path root = .ok rs →
      ∀ r ∈ rs, IGNORED_FIELDS.contains r.field = false := by
  intro xs
  induction xs with
  | nil =>
    intro i rs h r hr
    cases h
    cases hr
  | cons x rest ih =>
    intro i rs h r hr
    rw [listAddedRecords] at h
    cases hc : create_change_record (path ++ [toString i]) "added" .null x root with
    | error e => rw [hc] at h; exact Except.noConfusion h
    | ok r0 =>
      rw [hc] at h
      cases ht : listAddedRecords rest (i + 1) path root with
      | error e => rw [ht] at h; exact Except.noConfusion h
      | ok rs0 =>
        rw [ht] at h
        injection h with h1
        subst h1
        rcases List.mem_cons.mp hr with rfl | hmem
        · have hf := ccr_field _ _ _ _ _ _ hc
          rw [getLast?_append_one] at hf
          injection hf with hf
          rw [← hf]
          exact natStr_not_ignored i
        · exact ih (i + 1) rs0 ht r hmem

theorem listRemovedRecords_field (path : List String) (root : JValue) :
    ∀ (xs : List JValue) (i : Nat) (rs : List ChangeRecord),
      listRemovedRecords xs i path root = .ok rs →
      ∀ r ∈ rs, IGNORED_FIELDS.contains r.field = false := by
  intro xs
  induction xs with
  | nil =>
    intro i rs h r hr
    cases h
    cases hr
  | cons x rest ih =>
    intro i rs h r hr
    rw [listRemovedRecords] at h
    cases hc : create_change_record (path ++ [toString i]) "removed" x .null root with
    | error e => rw [hc] at h; exact Except.noConfusion h
    | ok r0 =>
      rw [hc] at h
      cases ht : listRemovedRecords rest (i + 1) path root with
      | error e => rw [ht] at h; exact Except.noConfusion h
      | ok rs0 =>
        rw [ht] at h
        injection h with h1
        subst h1
        rcases List.mem_cons.mp hr with rfl | hmem
        · have hf := ccr_field _ _ _ _ _ _ hc
          rw [getLast?_append_one] at hf
          injection hf with hf
          rw [← hf]
          exact natStr_not_ignored i
        · exact ih (i + 1) rs0 ht r hmem

theorem detect_changes_leaf (o n : JValue) (path : List String) (root : JValue)
    (ho : ∀ okvs nkvs, o = .obj okvs → n = .obj nkvs → False)
    (ha : ∀ oxs nxs, o = .arr oxs → n = .arr nxs → False) :
    detect_changes o n path root =
      if pyEq o n = true then .ok []
      else
        match create_change_record path "modified" o n root with
        | .error e => .error e
        | .ok r => .ok [r] := by
  cases o <;> cases n <;>
    first
      | rfl
      | exact (ho _ _ rfl rfl).elim
      | exact (ha _ _ rfl rfl).elim

theorem commonRecords_catchall (oxs nxs : List JValue) (i : Nat) (path : List String)
    (root : JValue)
    (hc : ∀ (x : JValue) (xs : List JValue) (y : JValue) (ys : List JValue),
      oxs = x :: xs → nxs = y :: ys → False) :
    commonRecords oxs nxs i path root = .ok [] := by
  cases oxs <;> cases nxs <;>
    first
      | rfl
      | exact (hc _ _ _ _ rfl rfl).elim

theorem detect_changes_field_aux :
    ∀ (old_state new_state : JValue) (path : List String) (root_state : JValue),
      PathOKP path → ∀ recs, detect_changes old_state new_state path root_state = .ok recs →
        ∀ r ∈ recs, IGNORED_FIELDS.contains r.field = false := by
  apply detect_changes.induct
    (fun old new path root => PathOKP path → ∀ recs,
      detect_changes old new path root = .ok recs →
        ∀ r ∈ recs, IGNORED_FIELDS.contains r.field = false)
    (fun oxs nxs i path root => PathOKP path → ∀ recs,
      commonRecords oxs nxs i path root = .ok recs →
        ∀ r ∈ recs, IGNORED_FIELDS.contains r.field = false)
    (fun okvs nkvs path root => PathOKP path → ∀ recs,
      modifiedRecords okvs nkvs path root = .ok recs →
        ∀ r ∈ recs, IGNORED_FIELDS.contains r.field = false)
  · intro path root okvs nkvs e hadd hp recs h
    simp only [detect_changes, hadd] at h
    exact Except.noConfusion h
  · intro path root okvs nkvs ra hadd e hrem hp recs h
    simp only [detect_changes, hadd, hrem] at h
    exact Except.noConfusion h
  · intro path root okvs nkvs ra hadd rr hrem e hmod ih hp recs h
    simp only [detect_changes, hadd, hrem, hmod] at h
    exact Except.noConfusion h
  · intro path root okvs nkvs ra hadd rr hrem rm hmod ih hp recs h
    simp only [detect_changes, hadd, hrem, hmod] at h
    injection h with h1
    subst h1
    intro r hr
    rcases List.mem_append.mp hr with h12 | h3
    · rcases List.mem_append.mp h12 with h1m | h2m
      · exact addedRecords_field okvs path root nkvs ra hadd r h1m
      · exact removedRecords_field nkvs path root okvs rr hrem r h2m
    · exact ih hp rm hmod r h3
  · intro path root oxs nxs e hcom ih hp recs h
    simp only [detect_changes, hcom] at h
    exact Except.noConfusion h
  · intro path root oxs nxs rc hcom e hla ih hp recs h
    simp only [detect_changes, hcom, hla] at h
    exact Except.noConfusion h
  · intro path root oxs nxs rc hcom rla hla e hlr ih hp recs h
    simp only [detect_changes, hcom, hla, hlr] at h
    exact Except.noConfusion h
  · intro path root oxs nxs rc hcom rla hla rlr hlr ih hp recs h
    simp only [detect_changes, hcom, hla, hlr] at h
    injection h with h1
    subst h1
    intro r hr
    rcases List.mem_append.mp hr with h12 | h3
    · rcases List.mem_append.mp h12 with h1m | h2m
      · exact ih hp rc hcom r h1m
      · exact listAddedRecords_field path root _ _ rla hla r h2m
    · exact listRemovedRecords_field path root _ _ rlr hlr r h3
  · intro path root o n ho ha hpy hp recs h
    rw [detect_changes_leaf o n path root ho ha] at h
    rw [if_pos hpy] at h
    injection h with h1
    subst h1
    intro r hr
    cases hr
  · intro path root o n ho ha hpy e hce hp recs h
    rw [detect_changes_leaf o n path root ho ha] at h
    rw [if_neg hpy] at h
    rw [hce] at h
    exact Except.noConfusion h
  · intro path root o n ho ha hpy r0 hcr hp recs h
    rw [detect_changes_leaf o n path root ho ha] at h
    rw [if_neg hpy] at h
    rw [hcr] at h
    injection h with h1
    subst h1
    intro r hr
    rcases List.mem_cons.mp hr with rfl | hmem
    · exact hp _ (ccr_field _ _ _ _ _ _ hcr)
    · cases hmem
  · intro i path root x xs y ys e hd ih1 hp recs h
    simp only [commonRecords, hd] at h
    exact Except.noConfusion h
  · intro i path root x xs y ys rsh hd e hrest ih1 ih2 hp recs h
    simp only [commonRecords, hd, hrest] at h
    exact Except.noConfusion h
  · intro i path root x xs y ys rsh hd rst hrest ih1 ih2 hp recs h
    simp only [commonRecords, hd, hrest] at h
    injection h with h1
    subst h1
    intro r hr
    rcases List.mem_append.mp hr with h1m | h2m
    · exact ih1 (pathOKP_idx path i) rsh hd r h1m
    · exact ih2 hp rst hrest r h2m
  · intro t nxs i path root hc hp recs h
    rw [commonRecords_catchall t nxs i path root hc] at h
    injection h with h1
    subst h1
    intro r hr
    cases hr
  · intro nkvs path root hp recs h
    simp only [modifiedRecords] at h
    injection h with h1
    subst h1
    intro r hr
    cases hr
  · intro nkvs path root k v rest e hmatch ih1 hp recs h
    simp only [modifiedRecords, hmatch] at h
    exact Except.noConfusion h
  · intro nkvs path root k v rest rs1 hmatch e hrest ih1 ih3 hp recs h
    simp only [modifiedRecords, hmatch, hrest] at h
    exact Except.noConfusion h
  · intro nkvs path root k v rest rs1 hmatch rs2 hrest ih1 ih3 hp recs h
    simp only [modifiedRecords, hmatch, hrest] at h
    injection h with h1
    subst h1
    intro r hr
    rcases List.mem_append.mp hr with h1m | h2m
    · cases hjk : jlookup nkvs k with
      | none =>
        simp only [hjk] at hmatch
        injection hmatch with h2
        subst h2
        cases h1m
      | some w =>
        simp only [hjk] at hmatch
        by_cases hgd : (!IGNORED_FIELDS.contains k && !pyEq v w) = true
        · rw [if_pos hgd] at hmatch
          have hk : IGNORED_FIELDS.contains k = false := by
            have := (Bool.and_eq_true _ _ |>.mp hgd).1
            simpa using this
          exact ih1 w (pathOKP_key path k hk) rs1 hmatch r h1m
        · rw [if_neg hgd] at hmatch
          injection hmatch with h2
          subst h2
          cases h1m
    · exact ih3 hp rs2 hrest r h2m

/-- Claim C5 counterexample: an ignored field name CAN appear inside a
record — adding key `"a"` whose subtree contains `"script_start_time"`
yields a record whose `new_value` carries that ignored key (the diff copies
whole subtrees into `old_value`/`new_value` without filtering). -/
theorem ignored_inside_value_counterexample :
    detectChangesTop (.obj []) (.obj [("a", .obj [("script_start_time", .num 5)])]) =
      .ok [⟨.null, .null, "a", "a", "added", .null, .obj [("script_start_time", .num 5)]⟩] ∧
    IGNORED_FIELDS.contains "script_start_time" = true ∧
    (match detectChangesTop (.obj []) (.obj [("a", .obj [("script_start_time", .num 5)])]) with
     | .ok (r :: _) =>
       (match r.new_value with
        | .obj kvs => (jlookup kvs "script_start_time").isSome
        | _ => false)
     | _ => false) = true :=
  ⟨rfl, rfl, rfl⟩

/-- Claim C5 (amended): a field name in the ignore-set never appears as a
record's `field` (equivalently, as the final structural path segment, the
position the diff guards): the diff neither emits records at ignored keys
nor recurses into them, though ignored names may still occur inside the
copied `old_value`/`new_value` subtrees of records for enclosing nodes. -/
theorem ignored_never_field (old new : JValue) (recs : List ChangeRecord)
    (h : detectChangesTop old new = .ok recs) :
    ∀ r ∈ recs, IGNORED_FIELDS.contains r.field = false :=
  detect_changes_field_aux old new [] new (by intro s hs; cases hs) recs h

/-- Witness for the amended C5 at a concrete diff. -/
theorem ignored_never_field_witness :
    IGNORED_FIELDS.contains
      (ChangeRecord.field ⟨.null, .null, "x", "b.x", "modified", .num 1, .num 2⟩) = false :=
  ignored_never_field (.obj [("b", .obj [("x", .num 1)])]) (.obj [("b", .obj [("x", .num 2)])])
    [⟨.null, .null, "x", "b.x", "modified", .num 1, .num 2⟩] rfl _ (by simp)

theorem ifacePairs_keys (ts : JValue) :
    ∀ (ifs : List JValue) (ps : List (JValue × JValue)), ifacePairs ts ifs = .ok ps →
      ∀ p ∈ ps, pyEq p.1 (.str "-") = false := by
  intro ifs
  induction ifs with
  | nil =>
    intro ps h p hp
    cases h
    cases hp
  | cons iface rest ih =>
    intro ps h p hp
    rw [ifacePairs] at h
    cases hg : pyGetD iface "team" (.str "required_versions") with
    | error e => rw [hg] at h; exact Except.noConfusion h
    | ok team =>
      rw [hg] at h
      cases ht : ifacePairs ts rest with
      | error e => rw [ht] at h; exact Except.noConfusion h
      | ok tail =>
        rw [ht] at h
        injection h with h1
        subst h1
        by_cases hsk : pyEq team (.str "-") = true
        · rw [if_pos hsk] at hp
          exact ih tail ht p hp
        · rw [if_neg hsk] at hp
          rcases List.mem_cons.mp hp with rfl | hmem
          · simpa using hsk
          · exact ih tail ht p hmem

theorem initialPairsOf_keys (ts : JValue) :
    ∀ (nets : List JValue) (ps : List (JValue × JValue)), initialPairsOf ts nets = .ok ps →
      ∀ p ∈ ps, pyEq p.1 (.str "-") = false := by
  intro nets
  induction nets with
  | nil =>
    intro ps h p hp
    cases h
    cases hp
  | cons network rest ih =>
    intro ps h p hp
    rw [initialPairsOf] at h
    cases h1 : pyGetD network "interface" (.arr []) with
    | error e => simp only [h1] at h; exact Except.noConfusion h
    | ok ifV =>
      simp only [h1] at h
      cases h2 : pyIter ifV with
      | error e => simp only [h2] at h; exact Except.noConfusion h
      | ok ifs =>
        simp only [h2] at h
        cases h3 : ifacePairs ts ifs with
        | error e => simp only [h3] at h; exact Except.noConfusion h
        | ok ps1 =>
          simp only [h3] at h
          cases h4 : initialPairsOf ts rest with
          | error e => simp only [h4] at h; exact Except.noConfusion h
          | ok ps2 =>
            simp only [h4] at h
            injection h with h5
            subst h5
            rcases List.mem_append.mp hp with hm | hm
            · exact ifacePairs_keys ts ifs ps1 h3 p hm
            · exact ih ps2 h4 p hm

theorem changePairs_keys (ts : JValue) :
    ∀ (chs : List JValue) (ps : List (JValue × JValue)), changePairs ts chs = .ok ps →
      ∀ p ∈ ps, pyEq p.1 (.str "-") = false := by
  intro chs
  induction chs with
  | nil =>
    intro ps h p hp
    cases h
    cases hp
  | cons change rest ih =>
    intro ps h p hp
    rw [changePairs] at h
    cases hg : pyGetD change "team" (.str "required_versions") with
    | error e => rw [hg] at h; exact Except.noConfusion h
    | ok team =>
      rw [hg] at h
      cases ht : changePairs ts rest with
      | error e => rw [ht] at h; exact Except.noConfusion h
      | ok tail =>
        rw [ht] at h
        injection h with h1
        subst h1
        by_cases hsk : pyEq team (.str "-") = true
        · rw [if_pos hsk] at hp
          exact ih tail ht p hp
        · rw [if_neg hsk] at hp
          rcases List.mem_cons.mp hp with rfl | hmem
          · simpa using hsk
          · exact ih tail ht p hmem

theorem parseEntryPairs_keys (e : JValue) (ps : List (JValue × JValue))
    (h : parseEntryPairs e = .ok ps) : ∀ p ∈ ps, pyEq p.1 (.str "-") = false := by
  unfold parseEntryPairs at h
  cases h1 : pyGetD e "timestamp" (.str "") with
  | error ex => simp only [h1] at h; exact Except.noConfusion h
  | ok ts =>
    simp only [h1] at h
    cases h2 : pyGetD e "type" .null with
    | error ex => simp only [h2] at h; exact Except.noConfusion h
    | ok ty =>
      simp only [h2] at h
      by_cases hin : pyEq ty (.str "initial") = true
      · rw [if_pos hin] at h
        cases h3 : pyGetD e "state" (.obj []) with
        | error ex => simp only [h3] at h; exact Except.noConfusion h
        | ok st =>
          simp only [h3] at h
          cases h4 : pyGetD st "networks" (.arr []) with
          | error ex => simp only [h4] at h; exact Except.noConfusion h
          | ok networksV =>
            simp only [h4] at h
            cases h5 : pyIter networksV with
            | error ex => simp only [h5] at h; exact Except.noConfusion h
            | ok nets =>
              simp only [h5] at h
              exact initialPairsOf_keys ts nets ps h
      · rw [if_neg hin] at h
        cases h3 : pyInStr "changes" e with
        | error ex => simp only [h3] at h; exact Except.noConfusion h
        | ok hasCh =>
          simp only [h3] at h
          by_cases hhc : hasCh = true
          · rw [if_pos hhc] at h
            cases h4 : pyGetD e "changes" (.arr []) with
            | error ex => simp only [h4] at h; exact Except.noConfusion h
            | ok chV =>
              simp only [h4] at h
              cases h5 : pyIter chV with
              | error ex => simp only [h5] at h; exact Except.noConfusion h
              | ok chs =>
                simp only [h5] at h
                exact changePairs_keys ts chs ps h
          · rw [if_neg hhc] at h
            injection h with h6
            subst h6
            intro p hp
            cases hp

theorem dinsert_keys {α : Type} (P : JValue → Prop) :
    ∀ (td : List (JValue × List α)) (k : JValue) (v : α),
      (∀ p ∈ td, P p.1) → P k → ∀ p ∈ dinsert td k v, P p.1 := by
  intro td
  induction td with
  | nil =>
    intro k v htd hk p hp
    rw [dinsert] at hp
    rcases List.mem_cons.mp hp with rfl | hmem
    · exact hk
    · cases hmem
  | cons q rest ih =>
    obtain ⟨k0, vs⟩ := q
    intro k v htd hk p hp
    rw [dinsert] at hp
    by_cases he : pyEq k0 k = true
    · rw [if_pos he] at hp
      rcases List.mem_cons.mp hp with rfl | hmem
      · exact htd (k0, vs) (List.mem_cons_self _ _)
      · exact htd p (List.mem_cons_of_mem _ hmem)
    · rw [if_neg he] at hp
      rcases List.mem_cons.mp hp with rfl | hmem
      · exact htd (k0, vs) (List.mem_cons_self _ _)
      · exact ih k v (fun q hq => htd q (List.mem_cons_of_mem _ hq)) hk p hmem

theorem insertPairs_keys (P : JValue → Prop) :
    ∀ (ps : List (JValue × JValue)) (td td2 : List (JValue × List JValue)),
      insertPairs td ps = .ok td2 → (∀ p ∈ td, P p.1) → (∀ q ∈ ps, P q.1) →
      ∀ p ∈ td2, P p.1 := by
  intro ps
  induction ps with
  | nil =>
    intro td td2 h htd hps
    cases h
    exact htd
  | cons q rest ih =>
    obtain ⟨k, v⟩ := q
    intro td td2 h htd hps
    rw [insertPairs] at h
    by_cases hh : hashable k = true
    · rw [if_pos hh] at h
      exact ih (dinsert td k v) td2 h
        (dinsert_keys P td k v htd (hps (k, v) (List.mem_cons_self _ _)))
        (fun q hq => hps q (List.mem_cons_of_mem _ hq))
    · rw [if_neg hh] at h
      exact Except.noConfusion h

theorem parseGo_keys :
    ∀ (entries : List JValue) (td td2 : List (JValue × List JValue)),
      parseGo td entries = .ok td2 →
      (∀ p ∈ td, pyEq p.1 (.str "-") = false) →
      ∀ p ∈ td2, pyEq p.1 (.str "-") = false := by
  intro entries
  induction entries with
  | nil =>
    intro td td2 h htd
    cases h
    exact htd
  | cons e rest ih =>
    intro td td2 h htd
    rw [parseGo] at h
    cases h1 : parseEntryPairs e with
    | error ex => simp only [h1] at h; exact Except.noConfusion h
    | ok ps =>
      simp only [h1] at h
      cases h2 : insertPairs td ps with
      | error ex => simp only [h2] at h; exact Except.noConfusion h
      | ok td1 =>
        simp only [h2] at h
        exact ih td1 td2 h
          (insertPairs_keys (fun k => pyEq k (.str "-") = false) ps td td1 h2 htd
            (parseEntryPairs_keys e ps h1))

/-- Claim C6: the `"-"` sentinel team never reaches any TeamPartition, on all
three partitioning paths — the Merge Controller (`parse_changes_by_team`
skips `team == "-"` before grouping, so no performed write is keyed by it,
even on runs that later raise), the direct-diff path
(`save_team_changes` skips the `"-"` group), and the tracker's initial-run
partitioning (the `"-"` group is skipped at save time). -/
theorem sentinel_never_partitioned :
    (∀ (log : List JValue) (st : GFState) (w : List (JValue × List JValue))
        (res : Except PyExc GFState), runGapFiller log st = (w, res) →
        ∀ p ∈ w, pyEq p.1 (.str "-") = false) ∧
    (∀ (tc : List (JValue × List ChangeRecord)), ∀ p ∈ save_team_changes tc,
        pyEq p.1 (.str "-") = false) ∧
    (∀ (cs : JValue) (ts : String) (w : List (JValue × List JValue)),
        initialPartitionWrites cs ts = .ok w → ∀ p ∈ w, pyEq p.1 (.str "-") = false) := by
  refine ⟨?_, ?_, ?_⟩
  · intro log st w res h p hp
    unfold runGapFiller at h
    by_cases hg : (!st.migration_completed) = true
    · rw [if_pos hg] at h
      injection h with h1 h2
      subst h1
      cases hp
    · rw [if_neg hg] at h
      by_cases he : log.isEmpty = true
      · rw [if_pos he] at h
        injection h with h1 h2
        subst h1
        cases hp
      · rw [if_neg he] at h
        cases h1 : get_new_entries_since_timestamp log st.last_processed_timestamp with
        | error e =>
          simp only [h1] at h
          injection h with h2 h3
          subst h2
          cases hp
        | ok newE =>
          simp only [h1] at h
          by_cases hne : newE.isEmpty = true
          · rw [if_pos hne] at h
            injection h with h2 h3
            subst h2
            cases hp
          · rw [if_neg hne] at h
            cases h2 : parse_changes_by_team newE with
            | error e =>
              simp only [h2] at h
              injection h with h3 h4
              subst h3
              cases hp
            | ok td =>
              simp only [h2] at h
              have hkeys : ∀ q ∈ td, pyEq q.1 (.str "-") = false :=
                parseGo_keys newE [] td h2 (by intro q hq; cases hq)
              have hw : w = td.filter (fun q => !q.2.isEmpty) := by
                cases h3 : maxTimestamp newE with
                | error e =>
                  simp only [h3] at h
                  injection h with h4 h5
                  exact h4.symm
                | ok latest =>
                  simp only [h3] at h
                  injection h with h4 h5
                  exact h4.symm
              subst hw
              exact hkeys p (List.mem_of_mem_filter hp)
  · intro tc p hp
    have := List.mem_filter.mp hp
    have h2 := this.2
    simp only [Bool.and_eq_true, Bool.not_eq_true'] at h2
    exact h2.2
  · intro cs ts w h p hp
    unfold initialPartitionWrites at h
    cases h1 : pyGetD cs "networks" (.arr []) with
    | error e => simp only [h1] at h; exact Except.noConfusion h
    | ok networksV =>
      simp only [h1] at h
      cases h2 : pyIter networksV with
      | error e => simp only [h2] at h; exact Except.noConfusion h
      | ok nets =>
        simp only [h2] at h
        cases h3 : initialGroups ts [] nets with
        | error e => simp only [h3] at h; exact Except.noConfusion h
        | ok g =>
          simp only [h3] at h
          injection h with h4
          subst h4
          have := List.mem_filter.mp hp
          have h5 := this.2
          simpa using h5

/-- Witness for C6: concrete instantiations of all three conjuncts — a merge
run over a log containing a `"-"`-teamed change, a direct-diff group map
with a `"-"` group, and an initial snapshot with a `"-"`-teamed
interface. -/
theorem sentinel_never_partitioned_witness :
    pyEq (JValue.str "a") (JValue.str "-") = false ∧
    pyEq (JValue.str "b") (JValue.str "-") = false ∧
    pyEq (JValue.str "x") (JValue.str "-") = false := by
  refine ⟨?_, ?_, ?_⟩
  · exact sentinel_never_partitioned.1
      [JValue.obj [("timestamp", .str "t1"),
        ("changes", .arr [.obj [("team", .str "-")], .obj [("team", .str "a")]])]]
      ⟨.null, true, 0⟩
      [(JValue.str "a", [JValue.obj [("timestamp", .str "t1"), ("type", .str "change"),
        ("change_data", .obj [("team", .str "a")])]])]
      (.ok ⟨.str "t1", true, 1⟩) rfl
      (JValue.str "a", [JValue.obj [("timestamp", .str "t1"), ("type", .str "change"),
        ("change_data", .obj [("team", .str "a")])]])
      (List.mem_cons_self _ _)
  · exact sentinel_never_partitioned.2.1
      [(JValue.str "-", [(⟨.str "-", .null, "f", "f", "added", .null, .null⟩ : ChangeRecord)]),
       (JValue.str "b", [(⟨.str "b", .null, "f", "f", "added", .null, .null⟩ : ChangeRecord)])]
      (JValue.str "b", [(⟨.str "b", .null, "f", "f", "added", .null, .null⟩ : ChangeRecord)])
      (List.mem_cons_self _ _)
  · exact sentinel_never_partitioned.2.2
      (.obj [("networks", .arr [.obj [("interface",
        .arr [.obj [("team", .str "x")], .obj [("team", .str "-")]])]])]) "t0"
      [(JValue.str "x", [JValue.obj [("timestamp", .str "t0"), ("type", .str "initial"),
        ("team", .str "x"), ("interface_data", .obj [("team", .str "x")])]])] rfl
      (JValue.str "x", [JValue.obj [("timestamp", .str "t0"), ("type", .str "initial"),
        ("team", .str "x"), ("interface_data", .obj [("team", .str "x")])]])
      (List.mem_cons_self _ _)

theorem strLtL_irrefl (a : List Char) : strLtL a a = false := by
  induction a with
  | nil => rfl
  | cons x as ih =>
    simp only [strLtL]
    rw [if_neg (Nat.lt_irrefl _), if_neg (Nat.lt_irrefl _)]
    exact ih

theorem strLtL_trans (a : List Char) : ∀ b c : List Char,
    strLtL a b = true → strLtL b c = true → strLtL a c = true := by
  induction a with
  | nil =>
    intro b c hab hbc
    cases b with
    | nil => simp [strLtL] at hab
    | cons y bs =>
      cases c with
      | nil => simp [strLtL] at hbc
      | cons z cs => simp [strLtL]
  | cons x as ih =>
    intro b c hab hbc
    cases b with
    | nil => simp [strLtL] at hab
    | cons y bs =>
      cases c with
      | nil => simp [strLtL] at hbc
      | cons z cs =>
        simp only [strLtL] at hab hbc ⊢
        by_cases h1 : x.toNat < y.toNat
        · by_cases h2 : y.toNat < z.toNat
          · rw [if_pos (by omega : x.toNat < z.toNat)]
          · rw [if_neg h2] at hbc
            by_cases h3 : z.toNat < y.toNat
            · rw [if_pos h3] at hbc; exact absurd hbc (by simp)
            · rw [if_neg h3] at hbc
              rw [if_pos (by omega : x.toNat < z.toNat)]
        · rw [if_neg h1] at hab
          by_cases h4 : y.toNat < x.toNat
          · rw [if_pos h4] at hab; exact absurd hab (by simp)
          · rw [if_neg h4] at hab
            by_cases h2 : y.toNat < z.toNat
            · rw [if_pos (by omega : x.toNat < z.toNat)]
            · rw [if_neg h2] at hbc
              by_cases h3 : z.toNat < y.toNat
              · rw [if_pos h3] at hbc; exact absurd hbc (by simp)
              · rw [if_neg h3] at hbc
                rw [if_neg (by omega : ¬ x.toNat < z.toNat),
                    if_neg (by omega : ¬ z.toNat < x.toNat)]
                exact ih bs cs hab hbc

theorem strLtL_le_lt (a : List Char) : ∀ b c : List Char,
    strLtL b a = false → strLtL b c = true → strLtL a c = true := by
  induction a with
  | nil =>
    intro b c hba hbc
    cases c with
    | nil =>
      cases b with
      | nil => simp [strLtL] at hbc
      | cons y bs => simp [strLtL] at hbc
    | cons z cs => simp [strLtL]
  | cons x as ih =>
    intro b c hba hbc
    cases b with
    | nil => simp [strLtL] at hba
    | cons y bs =>
      cases c with
      | nil => simp [strLtL] at hbc
      | cons z cs =>
        simp only [strLtL] at hba hbc ⊢
        by_cases h1 : y.toNat < x.toNat
        · rw [if_pos h1] at hba; exact absurd hba (by simp)
        · rw [if_neg h1] at hba
          by_cases h2 : x.toNat < y.toNat
          · by_cases h3 : y.toNat < z.toNat
            · rw [if_pos (by omega : x.toNat < z.toNat)]
            · rw [if_neg h3] at hbc
              by_cases h4 : z.toNat < y.toNat
              · rw [if_pos h4] at hbc; exact absurd hbc (by simp)
              · rw [if_neg h4] at hbc
                rw [if_pos (by omega : x.toNat < z.toNat)]
          · rw [if_neg h2] at hba
            by_cases h3 : y.toNat < z.toNat
            · rw [if_pos (by omega : x.toNat < z.toNat)]
            · rw [if_neg h3] at hbc
              by_cases h4 : z.toNat < y.toNat
              · rw [if_pos h4] at hbc; exact absurd hbc (by simp)
              · rw [if_neg h4] at hbc
                rw [if_neg (by omega : ¬ x.toNat < z.toNat),
                    if_neg (by omega : ¬ z.toNat < x.toNat)]
                exact ih bs cs hba hbc

theorem strLtL_lt_le (a : List Char) : ∀ b c : List Char,
    strLtL a b = true → strLtL c b = false → strLtL a c = true := by
  induction a with
  | nil =>
    intro b c hab hcb
    cases b with
    | nil => simp [strLtL] at hab
    | cons y bs =>
      cases c with
      | nil => simp [strLtL] at hcb
      | cons z cs => simp [strLtL]
  | cons x as ih =>
    intro b c hab hcb
    cases b with
    | nil => simp [strLtL] at hab
    | cons y bs =>
      cases c with
      | nil => simp [strLtL] at hcb
      | cons z cs =>
        simp only [strLtL] at hab hcb ⊢
        by_cases h1 : z.toNat < y.toNat
        · rw [if_pos h1] at hcb; exact absurd hcb (by simp)
        · rw [if_neg h1] at hcb
          by_cases h2 : x.toNat < y.toNat
          · rw [if_pos (by omega : x.toNat < z.toNat)]
          · rw [if_neg h2] at hab
            by_cases h3 : y.toNat < x.toNat
            · rw [if_pos h3] at hab; exact absurd hab (by simp)
            · rw [if_neg h3] at hab
              by_cases h4 : y.toNat < z.toNat
              · rw [if_pos (by omega : x.toNat < z.toNat)]
              · rw [if_neg h4] at hcb
                rw [if_neg (by omega : ¬ x.toNat < z.toNat),
                    if_neg (by omega : ¬ z.toNat < x.toNat)]
                exact ih bs cs hab hcb

theorem pyStrLt_irrefl (a : String) : pyStrLt a a = false := strLtL_irrefl a.data

theorem pyStrLt_trans (a b c : String) (h1 : pyStrLt a b = true) (h2 : pyStrLt b c = true) :
    pyStrLt a c = true := strLtL_trans a.data b.data c.data h1 h2

theorem pyStrLt_le_lt (a b c : String) (h1 : pyStrLt b a = false) (h2 : pyStrLt b c = true) :
    pyStrLt a c = true := strLtL_le_lt a.data b.data c.data h1 h2

theorem pyStrLt_lt_le (a b c : String) (h1 : pyStrLt a b = true) (h2 : pyStrLt c b = false) :
    pyStrLt a c = true := strLtL_lt_le a.data b.data c.data h1 h2

theorem filter_of_all_true {α : Type} (p : α → Bool) :
    ∀ l : List α, (∀ e ∈ l, p e = true) → l.filter p = l := by
  intro l
  induction l with
  | nil => intro _; rfl
  | cons a as ih =>
    intro h
    rw [List.filter_cons, if_pos (h a (List.mem_cons_self a as)),
        ih (fun e he => h e (List.mem_cons_of_mem a he))]

theorem filter_of_all_false {α : Type} (p : α → Bool) :
    ∀ l : List α, (∀ e ∈ l, p e = false) → l.filter p = [] := by
  intro l
  induction l with
  | nil => intro _; rfl
  | cons a as ih =>
    intro h
    rw [List.filter_cons, if_neg (by simp [h a (List.mem_cons_self a as)]),
        ih (fun e he => h e (List.mem_cons_of_mem a he))]

theorem newOf_nil (last : JValue) : newOf [] last = [] := by
  cases last <;> simp [newOf]

theorem newOf_subset (log : List JValue) (last : JValue) :
    ∀ e ∈ newOf log last, e ∈ log := by
  intro e he
  cases last with
  | str s =>
    by_cases hs : s.isEmpty = true
    · rw [newOf, if_pos hs] at he; exact he
    · rw [newOf, if_neg hs] at he; exact (List.mem_filter.mp he).1
  | null => exact he
  | bool b => exact he
  | num n => exact he
  | arr xs => exact he
  | obj kvs => exact he

theorem pyEq_str_eq (a : String) (v : JValue) (h : pyEq (.str a) v = true) : v = .str a := by
  cases v with
  | str b =>
    have : a = b := by simpa [pyEq] using h
    rw [this]
  | null => simp [pyEq] at h
  | bool b => simp [pyEq] at h
  | num n => simp [pyEq] at h
  | arr xs => simp [pyEq] at h
  | obj kvs => simp [pyEq] at h

theorem pyEq_str_refl (s : String) : pyEq (.str s) (.str s) = true := by
  simp [pyEq]

theorem isStr_exists (v : JValue) (h : v.isStr = true) : ∃ s, v = .str s := by
  cases v <;> simp [JValue.isStr] at h ⊢

theorem hashable_of_isStr (v : JValue) (h : v.isStr = true) : hashable v = true := by
  cases v <;> simp [JValue.isStr, hashable] at h ⊢

theorem writtenTo_append {α : Type} (k : JValue) :
    ∀ a b : List (JValue × List α), writtenTo k (a ++ b) = writtenTo k a ++ writtenTo k b := by
  intro a b
  induction a with
  | nil => rfl
  | cons p rest ih =>
    simp [writtenTo, ih, List.append_assoc]

theorem writtenTo_nil_of {α : Type} (k : JValue) :
    ∀ td : List (JValue × List α), (∀ q ∈ td, pyEq q.1 k = false) → writtenTo k td = [] := by
  intro td
  induction td with
  | nil => intro _; rfl
  | cons p rest ih =>
    intro h
    simp only [writtenTo]
    rw [if_neg (by simp [h p (List.mem_cons_self p rest)]),
        ih (fun q hq => h q (List.mem_cons_of_mem p hq))]
    rfl

theorem writtenTo_filter_empties (k : JValue) :
    ∀ td : List (JValue × List JValue),
      writtenTo k (td.filter (fun p => !p.2.isEmpty)) = writtenTo k td := by
  intro td
  induction td with
  | nil => rfl
  | cons p rest ih =>
    obtain ⟨pk, pv⟩ := p
    cases pv with
    | nil => simp [List.filter_cons, writtenTo, ih]
    | cons x xs => simp [List.filter_cons, writtenTo, ih]

theorem sum_filter_empties :
    ∀ td : List (JValue × List JValue),
      ((td.filter (fun p => !p.2.isEmpty)).map (fun p => p.2.length)).sum =
        (td.map (fun p => p.2.length)).sum := by
  intro td
  induction td with
  | nil => rfl
  | cons p rest ih =>
    obtain ⟨pk, pv⟩ := p
    cases pv with
    | nil => simp [List.filter_cons, ih]
    | cons x xs => simp [List.filter_cons, ih]

theorem maxTsL_append (t : String) :
    ∀ xs ys : List String, maxTsL t (xs ++ ys) = maxTsL (maxTsL t xs) ys := by
  intro xs
  induction xs generalizing t with
  | nil => intro ys; rfl
  | cons s rest ih =>
    intro ys
    simp only [List.cons_append, maxTsL]
    exact ih (if pyStrLt t s then s else t) ys

theorem maxTsL_mem (t : String) : ∀ ts : List String, maxTsL t ts = t ∨ maxTsL t ts ∈ ts := by
  intro ts
  induction ts generalizing t with
  | nil => left; rfl
  | cons s rest ih =>
    by_cases hb : pyStrLt t s = true
    · simp only [maxTsL, if_pos hb]
      rcases ih s with h | h
      · right; rw [h]; exact List.mem_cons_self s rest
      · right; exact List.mem_cons_of_mem s h
    · simp only [maxTsL, if_neg hb]
      rcases ih t with h | h
      · left; exact h
      · right; exact List.mem_cons_of_mem s h

theorem maxTsL_ub :
    ∀ (ts : List String) (t x : String), (x = t ∨ x ∈ ts) →
      pyStrLt (maxTsL t ts) x = false := by
  intro ts
  induction ts with
  | nil =>
    intro t x hx
    rcases hx with heq | hx
    · rw [heq]; exact pyStrLt_irrefl t
    · cases hx
  | cons s rest ih =>
    intro t x hx
    simp only [maxTsL]
    by_cases hb : pyStrLt t s = true
    · rw [if_pos hb]
      rcases hx with heq | hx
      · rw [heq]
        have hM : pyStrLt (maxTsL s rest) s = false := ih s s (Or.inl rfl)
        cases hq : pyStrLt (maxTsL s rest) t with
        | false => rfl
        | true => exact absurd (pyStrLt_trans _ _ _ hq hb) (by simp [hM])
      · rcases List.mem_cons.mp hx with heq | hx
        · rw [heq]; exact ih s s (Or.inl rfl)
        · exact ih s x (Or.inr hx)
    · rw [if_neg hb]
      rcases hx with heq | hx
      · rw [heq]; exact ih t t (Or.inl rfl)
      · rcases List.mem_cons.mp hx with heq | hx
        · rw [heq]
          have hM : pyStrLt (maxTsL t rest) t = false := ih t t (Or.inl rfl)
          cases hq : pyStrLt (maxTsL t rest) s with
          | false => rfl
          | true =>
            have hb' : pyStrLt t s = false := by
              cases hc : pyStrLt t s with
              | false => rfl
              | true => exact absurd hc hb
            exact absurd (pyStrLt_lt_le _ _ _ hq hb') (by simp [hM])
        · exact ih t x (Or.inr hx)

theorem maxTsL_attained (t : String) (ts : List String) :
    ∃ x, (x = t ∨ x ∈ ts) ∧ maxTsL t ts = x := by
  rcases maxTsL_mem t ts with h | h
  · exact ⟨t, Or.inl rfl, h⟩
  · exact ⟨maxTsL t ts, Or.inr h, rfl⟩

theorem wfEntry_ts (e : JValue) (h : WFEntry e = true) :
    pyGetD e "timestamp" (.str "") = .ok (.str (tsOf e)) ∧ (tsOf e).isEmpty = false := by
  cases e with
  | obj kvs =>
    simp only [WFEntry, Bool.and_eq_true] at h
    obtain ⟨h1, _⟩ := h
    cases hl : jlookup kvs "timestamp" with
    | none => rw [hl] at h1; simp at h1
    | some t =>
      rw [hl] at h1
      cases t with
      | str s =>
        simp at h1
        constructor
        · simp [pyGetD, tsOf, hl]
        · simp [tsOf, hl, h1]
      | null => simp at h1
      | bool b => simp at h1
      | num n => simp at h1
      | arr xs => simp at h1
      | obj okvs => simp at h1
  | null => simp [WFEntry] at h
  | bool b => simp [WFEntry] at h
  | num n => simp [WFEntry] at h
  | str s => simp [WFEntry] at h
  | arr xs => simp [WFEntry] at h

theorem filterNewer_wf (s : String) :
    ∀ log : List JValue, (∀ e ∈ log, WFEntry e = true) →
      filterNewer log (.str s) = .ok (log.filter (fun e => pyStrLt s (tsOf e))) := by
  intro log
  induction log with
  | nil => intro _; rfl
  | cons e rest ih =>
    intro h
    have hts := (wfEntry_ts e (h e (List.mem_cons_self e rest))).1
    have hrest := ih (fun x hx => h x (List.mem_cons_of_mem e hx))
    simp only [filterNewer, hts, pyGtB, hrest]
    rw [List.filter_cons]

theorem gnest_wf (log : List JValue) (last : JValue)
    (hwf : ∀ e ∈ log, WFEntry e = true) (hlast : lastOk last = true) :
    get_new_entries_since_timestamp log last = .ok (newOf log last) := by
  cases last with
  | null => rfl
  | str s =>
    by_cases hs : s.isEmpty = true
    · have htr : JValue.truthy (.str s) = false := by simp [JValue.truthy, hs]
      rw [get_new_entries_since_timestamp, htr]
      simp [newOf, hs]
    · have htr : JValue.truthy (.str s) = true := by simp [JValue.truthy, hs]
      rw [get_new_entries_since_timestamp, htr]
      simp only [Bool.not_true, Bool.false_eq_true, if_false]
      rw [filterNewer_wf s log hwf]
      simp [newOf, hs]
  | bool b => simp [lastOk] at hlast
  | num n => simp [lastOk] at hlast
  | arr xs => simp [lastOk] at hlast
  | obj kvs => simp [lastOk] at hlast

theorem maxFoldJ_wf :
    ∀ rest : List JValue, (∀ e ∈ rest, WFEntry e = true) → ∀ t : String,
      maxFoldJ (.str t) rest = .ok (.str (maxTsL t (rest.map tsOf))) := by
  intro rest
  induction rest with
  | nil => intro _ t; rfl
  | cons e rest2 ih =>
    intro h t
    have hts := (wfEntry_ts e (h e (List.mem_cons_self e rest2))).1
    simp only [maxFoldJ, hts, pyGtB]
    have hpush : (if pyStrLt t (tsOf e) then JValue.str (tsOf e) else JValue.str t) =
        JValue.str (if pyStrLt t (tsOf e) then tsOf e else t) := by
      by_cases hb : pyStrLt t (tsOf e) = true
      · rw [if_pos hb, if_pos hb]
      · rw [if_neg hb, if_neg hb]
    rw [hpush, ih (fun x hx => h x (List.mem_cons_of_mem e hx))]
    rfl

theorem maxTimestamp_wf (e0 : JValue) (rest : List JValue)
    (h : ∀ e ∈ e0 :: rest, WFEntry e = true) :
    maxTimestamp (e0 :: rest) = .ok (.str (maxTsL (tsOf e0) (rest.map tsOf))) := by
  have hts := (wfEntry_ts e0 (h e0 (List.mem_cons_self e0 rest))).1
  simp only [maxTimestamp, hts]
  exact maxFoldJ_wf rest (fun x hx => h x (List.mem_cons_of_mem e0 hx)) (tsOf e0)

theorem maxTs_attained_entry (e0 : JValue) (rest : List JValue) :
    ∃ x ∈ e0 :: rest, maxTsL (tsOf e0) (rest.map tsOf) = tsOf x := by
  rcases maxTsL_mem (tsOf e0) (rest.map tsOf) with h | h
  · exact ⟨e0, List.mem_cons_self e0 rest, h⟩
  · obtain ⟨x, hx1, hx2⟩ := List.mem_map.mp h
    exact ⟨x, List.mem_cons_of_mem e0 hx1, hx2.symm⟩

theorem maxTs_ub_entry (e0 : JValue) (rest : List JValue) :
    ∀ x ∈ e0 :: rest, pyStrLt (maxTsL (tsOf e0) (rest.map tsOf)) (tsOf x) = false := by
  intro x hx
  apply maxTsL_ub
  rcases List.mem_cons.mp hx with heq | hx
  · rw [heq]; exact Or.inl rfl
  · exact Or.inr (List.mem_map_of_mem tsOf hx)

theorem cursor_dominates (log : List JValue) (last : JValue)
    (e0 : JValue) (rest : List JValue) (hne : newOf log last = e0 :: rest) :
    ∀ e ∈ log, pyStrLt (maxTsL (tsOf e0) (rest.map tsOf)) (tsOf e) = false := by
  intro e he
  have hub := maxTs_ub_entry e0 rest
  cases last with
  | str s =>
    by_cases hs : s.isEmpty = true
    · rw [newOf, if_pos hs] at hne
      exact hub e (hne ▸ he)
    · rw [newOf, if_neg hs] at hne
      by_cases hfe : pyStrLt s (tsOf e) = true
      · exact hub e (by rw [← hne]; exact List.mem_filter.mpr ⟨he, hfe⟩)
      · obtain ⟨xm, hxm_mem, hxm_eq⟩ := maxTs_attained_entry e0 rest
        have hxm_filter : xm ∈ log.filter (fun x => pyStrLt s (tsOf x)) := by
          rw [hne]; exact hxm_mem
        have hsm : pyStrLt s (tsOf xm) = true := by
          simpa using (List.mem_filter.mp hxm_filter).2
        cases hq : pyStrLt (maxTsL (tsOf e0) (rest.map tsOf)) (tsOf e) with
        | false => rfl
        | true =>
          exfalso
          apply hfe
          rw [hxm_eq] at hq
          exact pyStrLt_trans s (tsOf xm) (tsOf e) hsm hq
  | null => exact hub e ((show log = e0 :: rest from hne) ▸ he)
  | bool b => exact hub e ((show log = e0 :: rest from hne) ▸ he)
  | num n => exact hub e ((show log = e0 :: rest from hne) ▸ he)
  | arr xs => exact hub e ((show log = e0 :: rest from hne) ▸ he)
  | obj kvs => exact hub e ((show log = e0 :: rest from hne) ▸ he)

theorem ifacePairs_okstr (ts : JValue) :
    ∀ ifs : List JValue, (∀ i ∈ ifs, WFIface i = true) →
      ∃ ps, ifacePairs ts ifs = .ok ps ∧ ∀ p ∈ ps, p.1.isStr = true := by
  intro ifs
  induction ifs with
  | nil => exact fun _ => ⟨[], rfl, fun p hp => absurd hp (List.not_mem_nil p)⟩
  | cons i rest ih =>
    intro h
    obtain ⟨tail, htail, htailk⟩ := ih (fun x hx => h x (List.mem_cons_of_mem i hx))
    have hi := h i (List.mem_cons_self i rest)
    cases i with
    | obj kvs =>
      have hteam : ((jlookup kvs "team").getD (.str "required_versions")).isStr = true := by
        simp only [WFIface] at hi
        cases hl : jlookup kvs "team" with
        | none => rfl
        | some t => rw [hl] at hi; simpa using hi
      refine ⟨if pyEq ((jlookup kvs "team").getD (.str "required_versions")) (.str "-") then tail
              else (((jlookup kvs "team").getD (.str "required_versions")),
                    JValue.obj [("timestamp", ts), ("type", .str "initial"),
                      ("team", (jlookup kvs "team").getD (.str "required_versions")),
                      ("interface_data", .obj kvs)]) :: tail, ?_, ?_⟩
      · simp only [ifacePairs, pyGetD, htail]
      · intro p hp
        by_cases hsk :
            pyEq ((jlookup kvs "team").getD (.str "required_versions")) (.str "-") = true
        · rw [if_pos hsk] at hp
          exact htailk p hp
        · rw [if_neg hsk] at hp
          rcases List.mem_cons.mp hp with heq | hm
          · rw [heq]; exact hteam
          · exact htailk p hm
    | null => simp [WFIface] at hi
    | bool b => simp [WFIface] at hi
    | num n => simp [WFIface] at hi
    | str s => simp [WFIface] at hi
    | arr xs => simp [WFIface] at hi

theorem changePairs_okstr (ts : JValue) :
    ∀ chs : List JValue, (∀ c ∈ chs, WFChangeRec c = true) →
      ∃ ps, changePairs ts chs = .ok ps ∧ ∀ p ∈ ps, p.1.isStr = true := by
  intro chs
  induction chs with
  | nil => exact fun _ => ⟨[], rfl, fun p hp => absurd hp (List.not_mem_nil p)⟩
  | cons ch rest ih =>
    intro h
    obtain ⟨tail, htail, htailk⟩ := ih (fun x hx => h x (List.mem_cons_of_mem ch hx))
    have hc := h ch (List.mem_cons_self ch rest)
    cases ch with
    | obj kvs =>
      have hteam : ((jlookup kvs "team").getD (.str "required_versions")).isStr = true := by
        simp only [WFChangeRec] at hc
        cases hl : jlookup kvs "team" with
        | none => rfl
        | some t => rw [hl] at hc; simpa using hc
      refine ⟨if pyEq ((jlookup kvs "team").getD (.str "required_versions")) (.str "-") then tail
              else (((jlookup kvs "team").getD (.str "required_versions")),
                    JValue.obj [("timestamp", ts), ("type", .str "change"),
                      ("change_data", .obj kvs)]) :: tail, ?_, ?_⟩
      · simp only [changePairs, pyGetD, htail]
      · intro p hp
        by_cases hsk :
            pyEq ((jlookup kvs "team").getD (.str "required_versions")) (.str "-") = true
        · rw [if_pos hsk] at hp
          exact htailk p hp
        · rw [if_neg hsk] at hp
          rcases List.mem_cons.mp hp with heq | hm
          · rw [heq]; exact hteam
          · exact htailk p hm
    | null => simp [WFChangeRec] at hc
    | bool b => simp [WFChangeRec] at hc
    | num n => simp [WFChangeRec] at hc
    | str s => simp [WFChangeRec] at hc
    | arr xs => simp [WFChangeRec] at hc

theorem initialPairsOf_okstr (ts : JValue) :
    ∀ nets : List JValue, (∀ n ∈ nets, WFNetwork n = true) →
      ∃ ps, initialPairsOf ts nets = .ok ps ∧ ∀ p ∈ ps, p.1.isStr = true := by
  intro nets
  induction nets with
  | nil => exact fun _ => ⟨[], rfl, fun p hp => absurd hp (List.not_mem_nil p)⟩
  | cons network rest ih =>
    intro h
    obtain ⟨ps2, hps2, hps2k⟩ := ih (fun x hx => h x (List.mem_cons_of_mem network hx))
    have hn := h network (List.mem_cons_self network rest)
    cases network with
    | obj nkvs =>
      obtain ⟨il, hil, hilwf⟩ :
          ∃ il, (jlookup nkvs "interface").getD (.arr []) = .arr il ∧
            ∀ i ∈ il, WFIface i = true := by
        simp only [WFNetwork] at hn
        cases hl : jlookup nkvs "interface" with
        | none => exact ⟨[], rfl, fun i hi => absurd hi (List.not_mem_nil i)⟩
        | some v =>
          simp only [hl] at hn
          cases v with
          | arr il =>
            refine ⟨il, rfl, ?_⟩
            simpa [List.all_eq_true] using hn
          | null => simp at hn
          | bool b => simp at hn
          | num n2 => simp at hn
          | str s => simp at hn
          | obj kvs2 => simp at hn
      obtain ⟨ps1, hps1, hps1k⟩ := ifacePairs_okstr ts il hilwf
      refine ⟨ps1 ++ ps2, ?_, ?_⟩
      · simp only [initialPairsOf, pyGetD, hil, pyIter, hps1, hps2]
      · intro p hp
        rcases List.mem_append.mp hp with hm | hm
        · exact hps1k p hm
        · exact hps2k p hm
    | null => simp [WFNetwork] at hn
    | bool b => simp [WFNetwork] at hn
    | num n2 => simp [WFNetwork] at hn
    | str s => simp [WFNetwork] at hn
    | arr xs => simp [WFNetwork] at hn

theorem parseEntryPairs_okstr (e : JValue) (h : WFEntry e = true) :
    ∃ ps, parseEntryPairs e = .ok ps ∧ ∀ p ∈ ps, p.1.isStr = true := by
  cases e with
  | obj kvs =>
    simp only [WFEntry, Bool.and_eq_true] at h
    obtain ⟨h1, h2⟩ := h
    by_cases hty : pyEq ((jlookup kvs "type").getD .null) (.str "initial") = true
    · rw [if_pos hty] at h2
      cases hst : (jlookup kvs "state").getD (.obj []) with
      | obj skvs =>
        simp only [hst] at h2
        obtain ⟨nets, hnetsv, hnetswf⟩ :
            ∃ nets, (jlookup skvs "networks").getD (.arr []) = .arr nets ∧
              ∀ n ∈ nets, WFNetwork n = true := by
          cases hnw : jlookup skvs "networks" with
          | none => exact ⟨[], rfl, fun n hn => absurd hn (List.not_mem_nil n)⟩
          | some v =>
            simp only [hnw] at h2
            cases v with
            | arr nets =>
              refine ⟨nets, rfl, ?_⟩
              simpa [List.all_eq_true] using h2
            | null => simp at h2
            | bool b => simp at h2
            | num n2 => simp at h2
            | str s => simp at h2
            | obj kvs2 => simp at h2
        obtain ⟨ps, hps, hpsk⟩ :=
          initialPairsOf_okstr ((jlookup kvs "timestamp").getD (.str "")) nets hnetswf
        refine ⟨ps, ?_, hpsk⟩
        simp only [parseEntryPairs, pyGetD]
        rw [if_pos hty]
        simp only [hst, pyGetD, hnetsv, pyIter]
        exact hps
      | null => rw [hst] at h2; simp at h2
      | bool b => rw [hst] at h2; simp at h2
      | num n2 => rw [hst] at h2; simp at h2
      | str s => rw [hst] at h2; simp at h2
      | arr xs => rw [hst] at h2; simp at h2
    · rw [if_neg hty] at h2
      cases hch : jlookup kvs "changes" with
      | none =>
        refine ⟨[], ?_, fun p hp => absurd hp (List.not_mem_nil p)⟩
        simp only [parseEntryPairs, pyGetD]
        rw [if_neg hty]
        simp only [pyInStr, hch, Option.isSome_none]
        rfl
      | some v =>
        simp only [hch] at h2
        cases v with
        | arr chs =>
          have hchswf : ∀ c ∈ chs, WFChangeRec c = true := by
            simpa [List.all_eq_true] using h2
          obtain ⟨ps, hps, hpsk⟩ :=
            changePairs_okstr ((jlookup kvs "timestamp").getD (.str "")) chs hchswf
          refine ⟨ps, ?_, hpsk⟩
          simp only [parseEntryPairs, pyGetD]
          rw [if_neg hty]
          simp only [pyInStr, hch, Option.isSome_some]
          simp only [if_true, pyGetD, hch, Option.getD_some, pyIter]
          exact hps
        | null => simp at h2
        | bool b => simp at h2
        | num n2 => simp at h2
        | str s => simp at h2
        | obj kvs2 => simp at h2
  | null => simp [WFEntry] at h
  | bool b => simp [WFEntry] at h
  | num n2 => simp [WFEntry] at h
  | str s => simp [WFEntry] at h
  | arr xs => simp [WFEntry] at h

theorem dinsert_pairwise {α : Type} :
    ∀ (td : List (JValue × List α)) (k : JValue) (v : α),
      td.Pairwise (fun p q => pyEq p.1 q.1 = false) →
      (dinsert td k v).Pairwise (fun p q => pyEq p.1 q.1 = false) := by
  intro td
  induction td with
  | nil =>
    intro k v _
    simp [dinsert]
  | cons q rest ih =>
    obtain ⟨k0, vs⟩ := q
    intro k v hp
    rw [List.pairwise_cons] at hp
    obtain ⟨hhead, htail⟩ := hp
    rw [dinsert]
    by_cases he : pyEq k0 k = true
    · rw [if_pos he, List.pairwise_cons]
      exact ⟨hhead, htail⟩
    · rw [if_neg he, List.pairwise_cons]
      have he' : pyEq k0 k = false := by
        cases hc : pyEq k0 k with
        | false => rfl
        | true => exact absurd hc he
      constructor
      · exact dinsert_keys (fun x => pyEq k0 x = false) rest k v
          (fun q hq => hhead q hq) he'
      · exact ih k v htail

theorem dinsert_sum {α : Type} :
    ∀ (td : List (JValue × List α)) (k : JValue) (v : α),
      ((dinsert td k v).map (fun p => p.2.length)).sum =
        ((td.map (fun p => p.2.length)).sum) + 1 := by
  intro td
  induction td with
  | nil => intro k v; simp [dinsert]
  | cons q rest ih =>
    obtain ⟨k0, vs⟩ := q
    intro k v
    rw [dinsert]
    by_cases he : pyEq k0 k = true
    · rw [if_pos he]
      simp only [List.map_cons, List.sum_cons, List.length_append, List.length_cons,
        List.length_nil]
      omega
    · rw [if_neg he]
      simp only [List.map_cons, List.sum_cons, ih]
      omega

theorem dinsert_wt {α : Type} (k : JValue) :
    ∀ (td : List (JValue × List α)) (kk : JValue) (v : α),
      (∀ p ∈ td, p.1.isStr = true) →
      td.Pairwise (fun p q => pyEq p.1 q.1 = false) →
      writtenTo k (dinsert td kk v) =
        writtenTo k td ++ (if pyEq kk k then [v] else []) := by
  intro td
  induction td with
  | nil =>
    intro kk v _ _
    simp [dinsert, writtenTo]
  | cons q rest ih =>
    obtain ⟨k0, vs⟩ := q
    intro kk v hstr hp
    rw [List.pairwise_cons] at hp
    obtain ⟨hhead, htail⟩ := hp
    obtain ⟨s0, hs0⟩ := isStr_exists k0 (hstr (k0, vs) (List.mem_cons_self _ _))
    rw [dinsert]
    by_cases he : pyEq k0 kk = true
    · rw [if_pos he]
      have hkk : kk = .str s0 := by
        rw [hs0] at he
        exact pyEq_str_eq s0 kk he
      by_cases hk : pyEq k0 k = true
      · have hkis : k = .str s0 := by
          rw [hs0] at hk
          exact pyEq_str_eq s0 k hk
        have hkk2 : pyEq kk k = true := by
          rw [hkk, hkis]
          exact pyEq_str_refl s0
        have hrest : writtenTo k rest = [] := by
          apply writtenTo_nil_of
          intro q hq
          obtain ⟨sq, hsq⟩ := isStr_exists q.1 (hstr q (List.mem_cons_of_mem _ hq))
          have hne : pyEq k0 q.1 = false := hhead q hq
          rw [hs0, hsq] at hne
          rw [hsq, hkis]
          cases hc : pyEq (JValue.str sq) (JValue.str s0) with
          | false => rfl
          | true =>
            have h1 : JValue.str s0 = .str sq := pyEq_str_eq sq (.str s0) hc
            injection h1 with h1x
            rw [h1x] at hne
            rw [pyEq_str_refl sq] at hne
            exact hne
        simp [writtenTo, hk, hkk2, hrest]
      · have hk' : pyEq k0 k = false := by
          cases hc : pyEq k0 k with
          | false => rfl
          | true => exact absurd hc hk
        have hkk2 : pyEq kk k = false := by
          rw [hkk, ← hs0]
          exact hk'
        simp [writtenTo, hk', hkk2]
    · rw [if_neg he]
      simp only [writtenTo]
      rw [ih kk v (fun q hq => hstr q (List.mem_cons_of_mem _ hq)) htail]
      rw [List.append_assoc]

theorem insertPairs_char :
    ∀ (ps : List (JValue × JValue)) (td : List (JValue × List JValue)),
      (∀ p ∈ ps, p.1.isStr = true) →
      (∀ p ∈ td, p.1.isStr = true) →
      td.Pairwise (fun p q => pyEq p.1 q.1 = false) →
      ∃ td2, insertPairs td ps = .ok td2 ∧
        (∀ p ∈ td2, p.1.isStr = true) ∧
        td2.Pairwise (fun p q => pyEq p.1 q.1 = false) ∧
        (∀ k, writtenTo k td2 = writtenTo k td ++ pairsWritten k ps) ∧
        (td2.map (fun p => p.2.length)).sum =
          (td.map (fun p => p.2.length)).sum + ps.length := by
  intro ps
  induction ps with
  | nil =>
    intro td _ hstr hpw
    exact ⟨td, rfl, hstr, hpw, fun k => by simp [pairsWritten], by simp⟩
  | cons p rest ih =>
    obtain ⟨k1, v1⟩ := p
    intro td hpk hstr hpw
    have hk1 : k1.isStr = true := hpk (k1, v1) (List.mem_cons_self _ _)
    have hhash := hashable_of_isStr k1 hk1
    obtain ⟨td2, h2, hstr2, hpw2, hwt2, hsum2⟩ :=
      ih (dinsert td k1 v1)
        (fun q hq => hpk q (List.mem_cons_of_mem _ hq))
        (dinsert_keys (fun x => x.isStr = true) td k1 v1 hstr hk1)
        (dinsert_pairwise td k1 v1 hpw)
    refine ⟨td2, ?_, hstr2, hpw2, ?_, ?_⟩
    · rw [insertPairs, if_pos hhash]
      exact h2
    · intro k
      rw [hwt2 k, dinsert_wt k td k1 v1 hstr hpw, pairsWritten, List.append_assoc]
    · rw [hsum2, dinsert_sum]
      simp only [List.length_cons]
      omega

theorem parseGo_char :
    ∀ (log : List JValue) (td : List (JValue × List JValue)),
      (∀ e ∈ log, WFEntry e = true) →
      (∀ p ∈ td, p.1.isStr = true) →
      td.Pairwise (fun p q => pyEq p.1 q.1 = false) →
      ∃ tc, parseGo td log = .ok tc ∧
        (∀ p ∈ tc, p.1.isStr = true) ∧
        tc.Pairwise (fun p q => pyEq p.1 q.1 = false) ∧
        (∀ k, writtenTo k tc = writtenTo k td ++ logPairsWritten k log) ∧
        (tc.map (fun p => p.2.length)).sum =
          (td.map (fun p => p.2.length)).sum + logPairCount log := by
  intro log
  induction log with
  | nil =>
    intro td _ hstr hpw
    exact ⟨td, rfl, hstr, hpw, fun k => by simp [logPairsWritten], by simp [logPairCount]⟩
  | cons e rest ih =>
    intro td hwf hstr hpw
    obtain ⟨ps, hps, hpsk⟩ := parseEntryPairs_okstr e (hwf e (List.mem_cons_self e rest))
    obtain ⟨td2, h2, hstr2, hpw2, hwt2, hsum2⟩ := insertPairs_char ps td hpsk hstr hpw
    obtain ⟨tc, htc, hstr3, hpw3, hwt3, hsum3⟩ :=
      ih td2 (fun x hx => hwf x (List.mem_cons_of_mem e hx)) hstr2 hpw2
    refine ⟨tc, ?_, hstr3, hpw3, ?_, ?_⟩
    · rw [parseGo]
      simp only [hps, h2]
      exact htc
    · intro k
      rw [hwt3 k, hwt2 k, logPairsWritten]
      simp only [hps]
      rw [List.append_assoc]
    · rw [hsum3, hsum2]
      simp only [logPairCount, entryPairCount, hps]
      omega

theorem logPairsWritten_append (k : JValue) :
    ∀ l1 l2 : List JValue,
      logPairsWritten k (l1 ++ l2) = logPairsWritten k l1 ++ logPairsWritten k l2 := by
  intro l1 l2
  induction l1 with
  | nil => rfl
  | cons e rest ih => simp [logPairsWritten, ih, List.append_assoc]

theorem logPairCount_append :
    ∀ l1 l2 : List JValue, logPairCount (l1 ++ l2) = logPairCount l1 + logPairCount l2 := by
  intro l1 l2
  induction l1 with
  | nil => simp [logPairCount]
  | cons e rest ih =>
    simp only [List.cons_append, logPairCount, List.append_eq]
    rw [ih]
    omega

theorem runGF_char (log : List JValue) (st : GFState)
    (hwf : ∀ e ∈ log, WFEntry e = true)
    (hlast : lastOk st.last_processed_timestamp = true)
    (hmig : st.migration_completed = true) :
    (newOf log st.last_processed_timestamp = [] ∧ runGapFiller log st = ([], .ok st)) ∨
    (∃ e0 rest tc, newOf log st.last_processed_timestamp = e0 :: rest ∧
      parse_changes_by_team (e0 :: rest) = .ok tc ∧
      runGapFiller log st =
        (tc.filter (fun p => !p.2.isEmpty),
         .ok ⟨.str (maxTsL (tsOf e0) (rest.map tsOf)), true,
              st.total_entries_processed +
                ((tc.filter (fun p => !p.2.isEmpty)).map (fun p => p.2.length)).sum⟩)) := by
  have hgn := gnest_wf log st.last_processed_timestamp hwf hlast
  cases hne2 : newOf log st.last_processed_timestamp with
  | nil =>
    left
    refine ⟨rfl, ?_⟩
    unfold runGapFiller
    rw [hmig, Bool.not_true, if_neg Bool.false_ne_true]
    cases hlogE : log with
    | nil => rfl
    | cons E rest2 =>
      rw [hlogE] at hgn hne2
      rw [show (E :: rest2).isEmpty = false from rfl, if_neg Bool.false_ne_true, hgn, hne2]
      rfl
  | cons e0 rest =>
    right
    have hwfne : ∀ x ∈ e0 :: rest, WFEntry x = true := by
      rw [← hne2]
      exact fun x hx => hwf x (newOf_subset log _ x hx)
    obtain ⟨tc, hparse, _, _, _, _⟩ :=
      parseGo_char (e0 :: rest) [] hwfne (by simp) (by simp)
    have hmax := maxTimestamp_wf e0 rest hwfne
    refine ⟨e0, rest, tc, rfl, hparse, ?_⟩
    cases hlogE : log with
    | nil =>
      rw [hlogE, newOf_nil] at hne2
      exact absurd hne2 (by simp)
    | cons E rest2 =>
      rw [hlogE] at hgn hne2
      unfold runGapFiller
      rw [hmig, Bool.not_true, if_neg Bool.false_ne_true,
          show (E :: rest2).isEmpty = false from rfl, if_neg Bool.false_ne_true, hgn, hne2]
      have hparse2 : parse_changes_by_team (e0 :: rest) = .ok tc := hparse
      simp only [List.isEmpty_cons, Bool.false_eq_true, if_false, hparse2, hmax, hmig]

/-- C1 counterexample: on a log whose single entry lacks a timestamp, the
first call advances the cursor to the empty string, which
`get_new_entries_since_timestamp` treats as unset (`if not last_timestamp`),
so a second call with the unchanged log repeats the same partition write and
bumps `total_entries_processed` again — the second call is not a no-op. -/
theorem merge_second_call_rewrites :
    runGapFiller [.obj [("changes", .arr [.obj [("team", .str "a")]])]] ⟨.null, true, 0⟩ =
      ([(.str "a", [.obj [("timestamp", .str ""), ("type", .str "change"),
                          ("change_data", .obj [("team", .str "a")])]])],
       .ok ⟨.str "", true, 1⟩) ∧
    runGapFiller [.obj [("changes", .arr [.obj [("team", .str "a")]])]] ⟨.str "", true, 1⟩ =
      ([(.str "a", [.obj [("timestamp", .str ""), ("type", .str "change"),
                          ("change_data", .obj [("team", .str "a")])]])],
       .ok ⟨.str "", true, 2⟩) :=
  ⟨rfl, rfl⟩

/-- C1 (amended): for every source log whose entries are well-formed
ChangeBatch records (dicts carrying a non-empty string timestamp) and every
persisted MergeState whose cursor is well-typed (`None` or a string), a
second merge call after a successful first call performs zero partition
writes and returns the MergeState exactly as the first call left it. On logs
with missing/empty timestamps this fails (see the counterexample): the
cursor becomes `""`, which the code treats as unset and reprocesses. -/
theorem merge_idempotent_on_wf (log : List JValue) (st : GFState)
    (hwf : ∀ e ∈ log, WFEntry e = true)
    (hlast : lastOk st.last_processed_timestamp = true)
    (w : List (JValue × List JValue)) (st2 : GFState)
    (hrun : runGapFiller log st = (w, .ok st2)) :
    runGapFiller log st2 = ([], .ok st2) := by
  by_cases hmig : st.migration_completed = true
  · rcases runGF_char log st hwf hlast hmig with ⟨hne, heq⟩ | ⟨e0, rest, tc, hne, hparse, heq⟩
    · rw [heq] at hrun
      injection hrun with h1 h2
      injection h2 with h2
      rw [← h2]
      exact heq
    · rw [heq] at hrun
      injection hrun with h1 h2
      injection h2 with h2
      subst h2
      obtain ⟨xm, hxm_mem, hxm_eq⟩ := maxTs_attained_entry e0 rest
      have hxm_log : xm ∈ log := newOf_subset log _ xm (hne ▸ hxm_mem)
      have hm_ne : (maxTsL (tsOf e0) (rest.map tsOf)).isEmpty = false := by
        rw [hxm_eq]
        exact (wfEntry_ts xm (hwf xm hxm_log)).2
      have hdom := cursor_dominates log st.last_processed_timestamp e0 rest hne
      have hnew2 : newOf log (.str (maxTsL (tsOf e0) (rest.map tsOf))) = [] := by
        rw [newOf, if_neg (by simp [hm_ne])]
        exact filter_of_all_false _ log hdom
      rcases runGF_char log ⟨.str (maxTsL (tsOf e0) (rest.map tsOf)), true,
          st.total_entries_processed + ((tc.filter (fun p => !p.2.isEmpty)).map
            (fun p => p.2.length)).sum⟩ hwf rfl rfl with ⟨_, heq2⟩ | ⟨f0, rest2, tc2, hne2, _, _⟩
      · exact heq2
      · rw [hnew2] at hne2
        exact absurd hne2 (by simp)
  · have hmigf : st.migration_completed = false := by
      cases hc : st.migration_completed with
      | false => rfl
      | true => exact absurd hc hmig
    have heq : runGapFiller log st = ([], .ok st) := by
      unfold runGapFiller
      rw [hmigf, Bool.not_false, if_pos rfl]
    rw [heq] at hrun
    injection hrun with h1 h2
    injection h2 with h2
    rw [← h2]
    exact heq

/-- Witness for the amended C1: a concrete well-formed one-entry log; after
the first call advances the cursor to its timestamp, the second call writes
nothing and preserves the state. -/
theorem merge_idempotent_on_wf_witness :
    runGapFiller [.obj [("timestamp", .str "b"), ("changes", .arr [.obj [("team", .str "a")]])]]
        ⟨.str "b", true, 1⟩ =
      ([], .ok ⟨.str "b", true, 1⟩) :=
  merge_idempotent_on_wf
    [.obj [("timestamp", .str "b"), ("changes", .arr [.obj [("team", .str "a")]])]]
    ⟨.null, true, 0⟩ (by decide) rfl
    [(.str "a", [.obj [("timestamp", .str "b"), ("type", .str "change"),
                       ("change_data", .obj [("team", .str "a")])]])]
    ⟨.str "b", true, 1⟩ rfl

/-- C3 counterexample: one raw log entry whose `changes` list holds a
team-`"-"` record and two team-`"a"` records. The merge call processes a
subsequence of one raw entry, yet `total_entries_processed` advances by 2 —
the per-team appended count after dropping `"-"` and expanding the entry,
not the raw-entry count. -/
theorem counter_not_raw_entries :
    runGapFiller [.obj [("timestamp", .str "t"),
        ("changes", .arr [.obj [("team", .str "-")], .obj [("team", .str "a")],
                          .obj [("team", .str "a")]])]] ⟨.null, true, 0⟩ =
      ([(.str "a", [.obj [("timestamp", .str "t"), ("type", .str "change"),
                          ("change_data", .obj [("team", .str "a")])],
                    .obj [("timestamp", .str "t"), ("type", .str "change"),
                          ("change_data", .obj [("team", .str "a")])]])],
       .ok ⟨.str "t", true, 2⟩) ∧
    ([JValue.obj [("timestamp", .str "t"),
        ("changes", .arr [.obj [("team", .str "-")], .obj [("team", .str "a")],
                          .obj [("team", .str "a")]])]] : List JValue).length = 1 :=
  ⟨rfl, rfl⟩

/-- C3 (amended): after every successful non-gated merge call over a
well-formed log with a well-typed cursor, `total_entries_processed` advances
by the number of team entries actually appended across the partitions — the
total length of the per-team write lists, equal to the post-`"-"`-filter,
post-expansion pair count of the processed subsequence — and not by the raw
count of log entries in that subsequence. -/
theorem counter_counts_appended_entries (log : List JValue) (st : GFState)
    (hwf : ∀ e ∈ log, WFEntry e = true)
    (hlast : lastOk st.last_processed_timestamp = true)
    (hmig : st.migration_completed = true)
    (w : List (JValue × List JValue)) (st2 : GFState)
    (hrun : runGapFiller log st = (w, .ok st2)) :
    st2.total_entries_processed =
      st.total_entries_processed + (w.map (fun p => p.2.length)).sum ∧
    st2.total_entries_processed =
      st.total_entries_processed + logPairCount (newOf log st.last_processed_timestamp) := by
  rcases runGF_char log st hwf hlast hmig with ⟨hne, heq⟩ | ⟨e0, rest, tc, hne, hparse, heq⟩
  · rw [heq] at hrun
    injection hrun with h1 h2
    injection h2 with h2
    rw [← h2, ← h1, hne]
    constructor
    · simp
    · simp [logPairCount]
  · rw [heq] at hrun
    injection hrun with h1 h2
    injection h2 with h2
    subst h2
    have hwfne : ∀ x ∈ e0 :: rest, WFEntry x = true := by
      rw [← hne]
      exact fun x hx => hwf x (newOf_subset log _ x hx)
    obtain ⟨tc2, hparse2, _, _, _, hsum⟩ :=
      parseGo_char (e0 :: rest) [] hwfne (by simp) (by simp)
    have htc : tc2 = tc := by
      have h3 : parseGo [] (e0 :: rest) = Except.ok tc := hparse
      rw [hparse2] at h3
      exact Except.ok.inj h3
    rw [← h1]
    constructor
    · rfl
    · rw [hne, sum_filter_empties tc]
      have hsum2 : (tc.map (fun p => p.2.length)).sum = logPairCount (e0 :: rest) := by
        rw [htc] at hsum
        simpa using hsum
      rw [hsum2]

/-- Witness for the amended C3 at the counterexample's input: two team
entries are appended, and both accounting forms agree with the counter. -/
theorem counter_counts_appended_entries_witness :
    (2 : Nat) = 0 + (([((JValue.str "a"),
        [JValue.obj [("timestamp", .str "t"), ("type", .str "change"),
                     ("change_data", .obj [("team", .str "a")])],
         JValue.obj [("timestamp", .str "t"), ("type", .str "change"),
                     ("change_data", .obj [("team", .str "a")])]])] :
        List (JValue × List JValue)).map (fun p => p.2.length)).sum ∧
    (2 : Nat) = 0 + logPairCount (newOf [.obj [("timestamp", .str "t"),
        ("changes", .arr [.obj [("team", .str "-")], .obj [("team", .str "a")],
                          .obj [("team", .str "a")]])]] JValue.null) :=
  counter_counts_appended_entries
    [.obj [("timestamp", .str "t"),
        ("changes", .arr [.obj [("team", .str "-")], .obj [("team", .str "a")],
                          .obj [("team", .str "a")]])]]
    ⟨.null, true, 0⟩ (by decide) rfl rfl
    [(.str "a", [.obj [("timestamp", .str "t"), ("type", .str "change"),
                       ("change_data", .obj [("team", .str "a")])],
                 .obj [("timestamp", .str "t"), ("type", .str "change"),
                       ("change_data", .obj [("team", .str "a")])]])]
    ⟨.str "t", true, 2⟩ rfl

/-- C2: replay equivalence. For a well-formed source log split at T2 into a
chunk of entries with timestamps up to T2 followed by entries strictly above
T2, and a well-typed initial cursor, merging the first chunk and then the
full log reaches the same final MergeState as merging the full log in one
call, and every team's partition receives the same entries. -/
theorem replay_equivalence
    (l1 l2 : List JValue) (t2 : String) (st0 : GFState)
    (hwf : ∀ e ∈ l1 ++ l2, WFEntry e = true)
    (hlast : lastOk st0.last_processed_timestamp = true)
    (hle : ∀ e ∈ l1, pyStrLt t2 (tsOf e) = false)
    (hgt : ∀ e ∈ l2, pyStrLt t2 (tsOf e) = true)
    (w1 w2 wA : List (JValue × List JValue)) (st1 st2 stA : GFState)
    (hrun1 : runGapFiller l1 st0 = (w1, .ok st1))
    (hrun2 : runGapFiller (l1 ++ l2) st1 = (w2, .ok st2))
    (hrunA : runGapFiller (l1 ++ l2) st0 = (wA, .ok stA)) :
    st2 = stA ∧ ∀ k, writtenTo k (w1 ++ w2) = writtenTo k wA := by
  have hwf1 : ∀ e ∈ l1, WFEntry e = true := fun e he => hwf e (List.mem_append_left l2 he)
  have hwf2 : ∀ e ∈ l2, WFEntry e = true := fun e he => hwf e (List.mem_append_right l1 he)
  by_cases hmig : st0.migration_completed = true
  · rcases runGF_char l1 st0 hwf1 hlast hmig with
      ⟨hne1, heq1⟩ | ⟨e0, rest1, tc1, hne1, hparse1, heq1⟩
    · rw [heq1] at hrun1
      injection hrun1 with h1 h2
      injection h2 with h2
      rw [← h2] at hrun2
      have h3 := hrun2.symm.trans hrunA
      injection h3 with h3a h3b
      injection h3b with h3b
      refine ⟨h3b, fun k => ?_⟩
      rw [← h1, List.nil_append, h3a]
    · rw [heq1] at hrun1
      injection hrun1 with h1 h2
      injection h2 with h2
      subst h2
      obtain ⟨xm, hxm_mem, hxm_eq⟩ := maxTs_attained_entry e0 rest1
      have hsubnew : ∀ x ∈ e0 :: rest1, x ∈ l1 := by
        rw [← hne1]
        exact fun x hx => newOf_subset l1 _ x hx
      have hxm_l1 : xm ∈ l1 := hsubnew xm hxm_mem
      have hm1_ne : (maxTsL (tsOf e0) (rest1.map tsOf)).isEmpty = false := by
        rw [hxm_eq]
        exact (wfEntry_ts xm (hwf1 xm hxm_l1)).2
      have hdom1 := cursor_dominates l1 st0.last_processed_timestamp e0 rest1 hne1
      have hm1_le_t2 : pyStrLt t2 (maxTsL (tsOf e0) (rest1.map tsOf)) = false := by
        rw [hxm_eq]
        exact hle xm hxm_l1
      have hl2_gt_m1 : ∀ e ∈ l2,
          pyStrLt (maxTsL (tsOf e0) (rest1.map tsOf)) (tsOf e) = true :=
        fun e he => pyStrLt_le_lt _ t2 _ hm1_le_t2 (hgt e he)
      have hnew2 : newOf (l1 ++ l2) (.str (maxTsL (tsOf e0) (rest1.map tsOf))) = l2 := by
        rw [newOf, if_neg (by simp [hm1_ne])]
        rw [List.filter_append]
        rw [filter_of_all_false _ l1 hdom1]
        rw [filter_of_all_true _ l2 hl2_gt_m1]
        exact List.nil_append l2
      have hnewA : newOf (l1 ++ l2) st0.last_processed_timestamp = (e0 :: rest1) ++ l2 := by
        cases hl0 : st0.last_processed_timestamp with
        | null =>
          rw [hl0] at hne1
          have hl1eq : l1 = e0 :: rest1 := hne1
          show l1 ++ l2 = (e0 :: rest1) ++ l2
          rw [hl1eq]
        | str s0 =>
          rw [hl0] at hne1
          by_cases hs0 : s0.isEmpty = true
          · rw [newOf, if_pos hs0] at hne1
            rw [newOf, if_pos hs0, hne1]
          · rw [newOf, if_neg hs0] at hne1
            rw [newOf, if_neg hs0]
            rw [List.filter_append, hne1]
            congr 1
            apply filter_of_all_true
            intro e he
            have hs0m1 : pyStrLt s0 (maxTsL (tsOf e0) (rest1.map tsOf)) = true := by
              rw [hxm_eq]
              have hxf : xm ∈ l1.filter (fun e => pyStrLt s0 (tsOf e)) := by
                rw [hne1]
                exact hxm_mem
              simpa using (List.mem_filter.mp hxf).2
            exact pyStrLt_trans s0 _ (tsOf e) hs0m1 (hl2_gt_m1 e he)
        | bool b => rw [hl0] at hlast; simp [lastOk] at hlast
        | num n => rw [hl0] at hlast; simp [lastOk] at hlast
        | arr xs => rw [hl0] at hlast; simp [lastOk] at hlast
        | obj kvs => rw [hl0] at hlast; simp [lastOk] at hlast
      have hwfn1 : ∀ x ∈ e0 :: rest1, WFEntry x = true := fun x hx => hwf1 x (hsubnew x hx)
      obtain ⟨tc1x, hp1, _, _, hwt1, hsum1⟩ :=
        parseGo_char (e0 :: rest1) [] hwfn1 (by simp) (by simp)
      have htc1 : tc1x = tc1 := by
        have h3 : parseGo [] (e0 :: rest1) = Except.ok tc1 := hparse1
        rw [hp1] at h3
        exact Except.ok.inj h3
      rw [htc1] at hwt1 hsum1
      rcases runGF_char (l1 ++ l2)
          ⟨.str (maxTsL (tsOf e0) (rest1.map tsOf)), true,
           st0.total_entries_processed + ((tc1.filter (fun p => !p.2.isEmpty)).map
             (fun p => p.2.length)).sum⟩ hwf rfl rfl with
        ⟨hne2, heq2⟩ | ⟨f0, rest2, tc2, hne2, hparse2, heq2⟩
      · have hne2x : newOf (l1 ++ l2) (.str (maxTsL (tsOf e0) (rest1.map tsOf))) = [] := hne2
        rw [hnew2] at hne2x
        subst hne2x
        rw [heq2] at hrun2
        injection hrun2 with h2a h2b
        injection h2b with h2b
        rw [List.append_nil] at hrunA
        rw [heq1] at hrunA
        injection hrunA with hAa hAb
        injection hAb with hAb
        constructor
        · rw [← h2b, ← hAb]
        · intro k
          rw [← h1, ← h2a, ← hAa, writtenTo_append]
          simp only [writtenTo, List.append_nil]
      · have hne2x : newOf (l1 ++ l2) (.str (maxTsL (tsOf e0) (rest1.map tsOf))) =
            f0 :: rest2 := hne2
        rw [hnew2] at hne2x
        subst hne2x
        rw [heq2] at hrun2
        injection hrun2 with h2a h2b
        injection h2b with h2b
        rcases runGF_char (l1 ++ f0 :: rest2) st0 hwf hlast hmig with
          ⟨hneA, heqA⟩ | ⟨g0, restA, tcA, hneA, hparseA, heqA⟩
        · rw [hnewA] at hneA
          exact absurd hneA (by simp)
        · rw [hnewA, List.cons_append] at hneA
          injection hneA with hg0 hrestA
          subst hg0
          subst hrestA
          rw [heqA] at hrunA
          injection hrunA with hAa hAb
          injection hAb with hAb
          have hmA : maxTsL (tsOf e0) ((rest1 ++ f0 :: rest2).map tsOf) =
              maxTsL (tsOf f0) (rest2.map tsOf) := by
            rw [List.map_append, maxTsL_append]
            have hlt : pyStrLt (maxTsL (tsOf e0) (rest1.map tsOf)) (tsOf f0) = true :=
              hl2_gt_m1 f0 (List.mem_cons_self f0 rest2)
            simp only [List.map_cons, maxTsL, if_pos hlt]
          obtain ⟨tc2x, hp2, _, _, hwt2, hsum2⟩ :=
            parseGo_char (f0 :: rest2) [] hwf2 (by simp) (by simp)
          have htc2 : tc2x = tc2 := by
            have h3 : parseGo [] (f0 :: rest2) = Except.ok tc2 := hparse2
            rw [hp2] at h3
            exact Except.ok.inj h3
          rw [htc2] at hwt2 hsum2
          have hwfA2 : ∀ x ∈ (e0 :: rest1) ++ f0 :: rest2, WFEntry x = true := by
            intro x hx
            rcases List.mem_append.mp hx with hm | hm
            · exact hwfn1 x hm
            · exact hwf2 x hm
          obtain ⟨tcAx, hpA, _, _, hwtA, hsumA⟩ :=
            parseGo_char ((e0 :: rest1) ++ f0 :: rest2) [] hwfA2 (by simp) (by simp)
          have htcA : tcAx = tcA := by
            have h3 : parseGo [] ((e0 :: rest1) ++ f0 :: rest2) = Except.ok tcA := by
              rw [List.cons_append]
              exact hparseA
            rw [hpA] at h3
            exact Except.ok.inj h3
          rw [htcA] at hwtA hsumA
          constructor
          · rw [← h2b, ← hAb]
            rw [hmA]
            congr 1
            rw [sum_filter_empties tc1, sum_filter_empties tc2, sum_filter_empties tcA]
            simp only [List.map_nil, List.sum_nil, Nat.zero_add] at hsum1 hsum2 hsumA
            rw [hsum1, hsum2, hsumA, logPairCount_append]
            have hproj : (GFState.mk (JValue.str (maxTsL (tsOf e0) (rest1.map tsOf))) true
                (st0.total_entries_processed +
                  logPairCount (e0 :: rest1))).total_entries_processed =
                st0.total_entries_processed + logPairCount (e0 :: rest1) := rfl
            rw [hproj]
            omega
          · intro k
            rw [← h1, ← h2a, ← hAa, writtenTo_append]
            rw [writtenTo_filter_empties, writtenTo_filter_empties, writtenTo_filter_empties]
            rw [hwt1 k, hwt2 k, hwtA k]
            simp only [writtenTo, List.nil_append]
            rw [logPairsWritten_append]
  · have hmigf : st0.migration_completed = false := by
      cases hc : st0.migration_completed with
      | false => rfl
      | true => exact absurd hc hmig
    have heq : runGapFiller l1 st0 = ([], .ok st0) := by
      unfold runGapFiller
      rw [hmigf, Bool.not_false, if_pos rfl]
    rw [heq] at hrun1
    injection hrun1 with h1 h2
    injection h2 with h2
    rw [← h2] at hrun2
    have h3 := hrun2.symm.trans hrunA
    injection h3 with h3a h3b
    injection h3b with h3b
    refine ⟨h3b, fun k => ?_⟩
    rw [← h1, List.nil_append, h3a]

/-- Witness for C2: a two-entry log (timestamps "1" and "2") split at T2 = "1";
chunked and single-call merges agree on the final state and on both teams'
partitions. -/
theorem replay_equivalence_witness :
    (⟨.str "2", true, 2⟩ : GFState) = ⟨.str "2", true, 2⟩ ∧
    writtenTo (.str "a")
        ([(JValue.str "a", [JValue.obj [("timestamp", .str "1"), ("type", .str "change"),
            ("change_data", .obj [("team", .str "a")])]])] ++
         [(JValue.str "b", [JValue.obj [("timestamp", .str "2"), ("type", .str "change"),
            ("change_data", .obj [("team", .str "b")])]])]) =
      writtenTo (.str "a")
        [(JValue.str "a", [JValue.obj [("timestamp", .str "1"), ("type", .str "change"),
            ("change_data", .obj [("team", .str "a")])]]),
         (JValue.str "b", [JValue.obj [("timestamp", .str "2"), ("type", .str "change"),
            ("change_data", .obj [("team", .str "b")])]])] ∧
    writtenTo (.str "b")
        ([(JValue.str "a", [JValue.obj [("timestamp", .str "1"), ("type", .str "change"),
            ("change_data", .obj [("team", .str "a")])]])] ++
         [(JValue.str "b", [JValue.obj [("timestamp", .str "2"), ("type", .str "change"),
            ("change_data", .obj [("team", .str "b")])]])]) =
      writtenTo (.str "b")
        [(JValue.str "a", [JValue.obj [("timestamp", .str "1"), ("type", .str "change"),
            ("change_data", .obj [("team", .str "a")])]]),
         (JValue.str "b", [JValue.obj [("timestamp", .str "2"), ("type", .str "change"),
            ("change_data", .obj [("team", .str "b")])]])] := by
  have h := replay_equivalence
    [.obj [("timestamp", .str "1"), ("changes", .arr [.obj [("team", .str "a")]])]]
    [.obj [("timestamp", .str "2"), ("changes", .arr [.obj [("team", .str "b")]])]]
    "1" ⟨.null, true, 0⟩ (by decide) rfl (by decide) (by decide)
    [(JValue.str "a", [JValue.obj [("timestamp", .str "1"), ("type", .str "change"),
        ("change_data", .obj [("team", .str "a")])]])]
    [(JValue.str "b", [JValue.obj [("timestamp", .str "2"), ("type", .str "change"),
        ("change_data", .obj [("team", .str "b")])]])]
    [(JValue.str "a", [JValue.obj [("timestamp", .str "1"), ("type", .str "change"),
        ("change_data", .obj [("team", .str "a")])]]),
     (JValue.str "b", [JValue.obj [("timestamp", .str "2"), ("type", .str "change"),
        ("change_data", .obj [("team", .str "b")])]])]
    ⟨.str "1", true, 1⟩ ⟨.str "2", true, 2⟩ ⟨.str "2", true, 2⟩ rfl rfl rfl
  exact ⟨h.1, h.2 (.str "a"), h.2 (.str "b")⟩

/-- C2 counterexample: a log whose single entry lacks a timestamp. Splitting
it as chunk ["the entry"] then remainder [] (every timestamp is up to any
T2), the chunked replay performs the write twice and ends with counter 2,
while the single full-log call writes once and ends with counter 1 — the
final MergeStates and the team-"a" partition lengths differ. -/
theorem replay_chunked_diverges :
    runGapFiller [.obj [("changes", .arr [.obj [("team", .str "a")]])]] ⟨.null, true, 0⟩ =
      ([(.str "a", [.obj [("timestamp", .str ""), ("type", .str "change"),
                          ("change_data", .obj [("team", .str "a")])]])],
       .ok ⟨.str "", true, 1⟩) ∧
    runGapFiller ([.obj [("changes", .arr [.obj [("team", .str "a")]])]] ++ [])
        ⟨.str "", true, 1⟩ =
      ([(.str "a", [.obj [("timestamp", .str ""), ("type", .str "change"),
                          ("change_data", .obj [("team", .str "a")])]])],
       .ok ⟨.str "", true, 2⟩) ∧
    (writtenTo (.str "a")
      ([(JValue.str "a", [JValue.obj [("timestamp", .str ""), ("type", .str "change"),
                          ("change_data", .obj [("team", .str "a")])]])] ++
       [(JValue.str "a", [JValue.obj [("timestamp", .str ""), ("type", .str "change"),
                          ("change_data", .obj [("team", .str "a")])]])])).length = 2 ∧
    (writtenTo (.str "a")
      [(JValue.str "a", [JValue.obj [("timestamp", .str ""), ("type", .str "change"),
                         ("change_data", .obj [("team", .str "a")])]])]).length = 1 :=
  ⟨rfl, rfl, rfl, rfl⟩
